import Mathlib

/-!
Shallow embedding of the pintos filesystem core (`src/pintos/src/filesys/cache.c`):
the 64-line write-back sector cache with clock eviction, the inode block map
(direct / indirect / double-indirect), the recursive allocation engine and the
open-inode registry.  Machine state is passed explicitly: the cache (and the
backing block device) is a `CacheState`, the free-sector allocator is a `FreeMap`
that records every sector address it handed out and every one released back to it,
and the open-inode list is a `List inode`.  Sector contents are byte lists of
length 512; indirection blocks and the on-disk inode record are serialized to and
from raw bytes exactly as the C struct layout stores them (little-endian 32-bit
words).  Fallible operations return `Option`; a `PANIC` is `none`.
-/

set_option maxRecDepth 100000
set_option maxHeartbeats 4000000

def BLOCK_SECTOR_SIZE : Nat := 512

def CACHE_SIZE : Nat := 64

def DIRECT_BLOCKS : Nat := 124

def INDIRECT_BLOCKS : Nat := 128

def DOUBLE_INDIRECT_BLOCKS : Nat := INDIRECT_BLOCKS * INDIRECT_BLOCKS

def INODE_MAGIC : Nat := 0x494e4f44

/-- The all-zero sector buffer (the zero-initialized `static char data[BLOCK_SECTOR_SIZE]`
used by the allocation engine, and the content of any never-written device sector in the
concrete scenarios below). -/
def zerosBlock : List Nat := List.replicate BLOCK_SECTOR_SIZE 0

/-- One line of the sector cache: `struct cache_entry_t` of cache.c. -/
structure cache_entry_t where
  sector : Nat
  data : List Nat
  access : Bool
  dirty : Bool
  free : Bool
deriving Repr, DecidableEq, Inhabited

/-- The mutable state the cache code touches: the global `cache` array (64 lines),
the `static size_t clock` hand of `fs_cache_evict`, and the backing block device
`fs_device` (sector number to sector content). -/
structure CacheState where
  cache : List cache_entry_t
  clock : Nat
  device : Nat → List Nat

/-- `block_write (fs_device, sector, data)`: the device after storing one sector. -/
def block_write (dev : Nat → List Nat) (sector : Nat) (b : List Nat) : Nat → List Nat :=
  fun s => if s = sector then b else dev s

/-- Index of the first list element satisfying `p` (the linear scans of cache.c). -/
def find_first (p : α → Bool) : List α → Option Nat
  | [] => none
  | a :: l => if p a then some 0 else (find_first p l).map (· + 1)

/-- `fs_cache_find`: index of the first non-free line holding `sector`, else none. -/
def fs_cache_find (sector : Nat) (st : CacheState) : Option Nat :=
  find_first (fun e => !e.free && e.sector == sector) st.cache

/-- `fs_cache_flush` on the line at index `i`: write a dirty line back to the device
and clear its dirty bit; a clean line is left alone. -/
def fs_cache_flush (i : Nat) (st : CacheState) : CacheState :=
  let e := st.cache.getD i default
  if e.dirty then
    { st with device := block_write st.device e.sector e.data,
              cache := st.cache.set i { e with dirty := false } }
  else st

/-- The clock loop body of `fs_cache_evict`, with explicit fuel.  Each iteration
looks at the line under the hand: a free line is claimed at once (hand not moved),
an accessed line has its flag cleared and the hand advances, and otherwise the loop
breaks: the victim is flushed if dirty and marked free.  The fuel never runs out in
an actual call (each non-returning iteration clears one accessed flag, see
`fs_cache_evict_go_isSome`); `none` is the impossible fuel-exhaustion case. -/
def fs_cache_evict_go : Nat → CacheState → Option Nat × CacheState
  | 0, st => (none, st)
  | fuel + 1, st =>
    let i := st.clock % CACHE_SIZE
    let e := st.cache.getD i default
    if e.free then (some i, st)
    else if e.access then
      fs_cache_evict_go fuel
        { st with cache := st.cache.set i { e with access := false },
                  clock := (i + 1) % CACHE_SIZE }
    else
      let st1 := fs_cache_flush i st
      (some i, { st1 with cache := st1.cache.set i { (st1.cache.getD i default) with free := true } })

/-- `fs_cache_evict`: run the clock loop; `CACHE_SIZE + 1` fuel always suffices.
The fallback branch is unreachable (`fs_cache_evict_go_isSome`). -/
def fs_cache_evict (st : CacheState) : Nat × CacheState :=
  match fs_cache_evict_go (CACHE_SIZE + 1) st with
  | (some i, st1) => (i, st1)
  | (none, st1) => (st1.clock % CACHE_SIZE, st1)

/-- `fs_cache_init`: all 64 lines free (the other fields are never read while a
line is free; the C code leaves them uninitialized, the model zeroes them). -/
def fs_cache_init (device : Nat → List Nat) : CacheState :=
  { cache := List.replicate CACHE_SIZE
      { sector := 0, data := zerosBlock, access := false, dirty := false, free := true },
    clock := 0,
    device := device }

/-- `fs_cache_destroy`: flush every occupied line back to the device. -/
def fs_cache_destroy (st : CacheState) : CacheState :=
  (List.range CACHE_SIZE).foldl
    (fun st i => if (st.cache.getD i default).free then st else fs_cache_flush i st) st

/-- `fs_cache_read`: on a hit, touch the line and copy its data out; on a miss, claim a
victim line, install the sector read from the device, touch it and copy out. -/
def fs_cache_read (sector : Nat) (st : CacheState) : List Nat × CacheState :=
  match fs_cache_find sector st with
  | some i =>
    let e := st.cache.getD i default
    (e.data, { st with cache := st.cache.set i { e with access := true } })
  | none =>
    let (i, st1) := fs_cache_evict st
    let b := st1.device sector
    let e : cache_entry_t :=
      { sector := sector, data := b, access := true, dirty := false, free := false }
    (b, { st1 with cache := st1.cache.set i e })

/-- `fs_cache_write`: on a hit, touch the line, mark it dirty and overwrite its data;
on a miss, claim a victim line, install the sector (the C code first reads the old
device content into the line, then `memcpy`s the full 512-byte buffer over it, so the
installed data is exactly the written buffer) and mark it dirty. -/
def fs_cache_write (sector : Nat) (s : List Nat) (st : CacheState) : CacheState :=
  match fs_cache_find sector st with
  | some i =>
    let e := st.cache.getD i default
    { st with cache := st.cache.set i { e with access := true, dirty := true, data := s } }
  | none =>
    let (i, st1) := fs_cache_evict st
    let e : cache_entry_t :=
      { sector := sector, data := s, access := true, dirty := true, free := false }
    { st1 with cache := st1.cache.set i e }

/-- Decode one little-endian 32-bit word at byte offset `off` of a sector buffer. -/
def decW (b : List Nat) (off : Nat) : Nat :=
  b.getD off 0 + 256 * (b.getD (off + 1) 0 + 256 * (b.getD (off + 2) 0 + 256 * b.getD (off + 3) 0))

/-- Encode a 32-bit word as four little-endian bytes. -/
def encW (w : Nat) : List Nat :=
  [w % 256, w / 256 % 256, w / 65536 % 256, w / 16777216 % 256]

/-- Reinterpret a raw sector as `struct inode_indirect_block`: 128 sector numbers. -/
def decInd (b : List Nat) : List Nat :=
  (List.range INDIRECT_BLOCKS).map (fun i => decW b (4 * i))

/-- Serialize an indirect block (128 sector numbers) back to raw bytes. -/
def encInd (ws : List Nat) : List Nat :=
  ((List.range INDIRECT_BLOCKS).map (fun i => encW (ws.getD i 0))).flatten

/-- Decode a 32-bit word as a signed two's-complement `int32` value. -/
def decI32 (w : Nat) : Int :=
  if w < 2147483648 then (w : Int) else (w : Int) - 4294967296

/-- On-disk inode: `struct inode_disk` of cache.c (exactly one sector when encoded:
4-byte signed length, 4-byte magic, 124 direct sector numbers, indirect sector,
double-indirect sector). -/
structure inode_disk where
  length : Int
  magic : Nat
  direct_blocks : List Nat
  indirect_block : Nat
  double_indirect_block : Nat
deriving Repr, DecidableEq, Inhabited

/-- Serialize an inode record to its 512-byte on-disk layout. -/
def encNode (d : inode_disk) : List Nat :=
  encW d.length.toNat ++ encW d.magic ++
    ((List.range DIRECT_BLOCKS).map (fun i => encW (d.direct_blocks.getD i 0))).flatten ++
    encW d.indirect_block ++ encW d.double_indirect_block

/-- Read an inode record back from its 512-byte on-disk layout. -/
def decNode (b : List Nat) : inode_disk :=
  { length := decI32 (decW b 0),
    magic := decW b 4,
    direct_blocks := (List.range DIRECT_BLOCKS).map (fun i => decW b (8 + 4 * i)),
    indirect_block := decW b 504,
    double_indirect_block := decW b 508 }

/-- Modelled from the spec (section 6, external collaborators): the free-sector
allocator, consumed as an opaque `allocate(count) -> first_address` /
`release(address, count)` service whose own code is outside the core.  The model
hands out fresh increasing sector numbers starting from `next` and records every
address obtained in `allocated` and every address given back in `released`, so that
allocation/deallocation symmetry can be stated.  Concrete scenarios start `next` at 1:
in pintos, sector 0 holds the free map itself and is never handed out (the allocation
engine uses sector number 0 as its "not yet allocated" sentinel). -/
structure FreeMap where
  next : Nat
  allocated : List Nat
  released : List Nat
deriving Repr, DecidableEq, Inhabited

/-- `free_map_allocate (1, &entry)`: obtain one fresh sector address. -/
def free_map_allocate (fm : FreeMap) : Nat × FreeMap :=
  (fm.next, { next := fm.next + 1, allocated := fm.allocated ++ [fm.next],
              released := fm.released })

/-- `free_map_release (sector, 1)`: give one sector address back. -/
def free_map_release (sector : Nat) (fm : FreeMap) : FreeMap :=
  { fm with released := fm.released ++ [sector] }

/-- Invariant of the free-sector allocator: every address it has handed out (and
every address it will hand out) is at least 1.  Sector 0 holds the free map itself
and doubles as the allocation engine's "not yet allocated" sentinel, so a healthy
allocator, such as the pristine `fm0` below, never gives it out. -/
def FmPos (fm : FreeMap) : Prop :=
  1 ≤ fm.next ∧ ∀ s ∈ fm.allocated, 1 ≤ s

/-- Bookkeeping invariant of the free-sector allocator: every address of the
window from `c` up to the current `next` has been recorded in `allocated`.  Since
the allocator hands out exactly `next, next+1, ...`, the window from the starting
`next` to the final one is exactly the set of addresses a computation consumed. -/
def FmWindow (c : Nat) (fm : FreeMap) : Prop :=
  c ≤ fm.next ∧ ∀ s, c ≤ s → s < fm.next → s ∈ fm.allocated

/-- `bytes_to_sectors`: `DIV_ROUND_UP (size, BLOCK_SECTOR_SIZE)` (callers only reach
it with a non-negative size). -/
def bytes_to_sectors (size : Int) : Nat :=
  (size.toNat + (BLOCK_SECTOR_SIZE - 1)) / BLOCK_SECTOR_SIZE

/-- In-memory inode: `struct inode` of cache.c (the list element is the registry
position itself in the model). -/
structure inode where
  sector : Nat
  open_cnt : Int
  removed : Bool
  deny_write_cnt : Int
  data : inode_disk
deriving Repr, DecidableEq, Inhabited

/-- `inode_allocate_indirect (&entry, nsectors, depth)`.  The first argument is the
depth (the recursion is structural on it); the returned `Nat` is the value the C code
leaves in `*entry`.  Depth 0 allocates one data sector and zero-fills it through the
cache.  Positive depth allocates the indirection block itself if `entry` is the 0
sentinel (zero-filling it), reads it, recurses into its first
`DIV_ROUND_UP (nsectors, n)` slots (n = 1 at depth 1, 128 deeper) and writes it back. -/
def inode_allocate_indirect : Nat → Nat → Nat → CacheState → FreeMap → Nat × CacheState × FreeMap
  | 0, _entry, _nsectors, st, fm =>
    let (s, fm) := free_map_allocate fm
    let st := fs_cache_write s zerosBlock st
    (s, st, fm)
  | d + 1, entry, nsectors, st, fm =>
    let (entry, st, fm) :=
      if entry = 0 then
        let (s, fm1) := free_map_allocate fm
        (s, fs_cache_write s zerosBlock st, fm1)
      else (entry, st, fm)
    let (b, st) := fs_cache_read entry st
    let blocks := decInd b
    let n := if d = 0 then 1 else INDIRECT_BLOCKS
    let l := (nsectors + n - 1) / n
    let r := (List.range l).foldl
      (fun acc i =>
        let (blocks, ns, st, fm) := acc
        let subsize := min ns n
        let (e, st, fm) := inode_allocate_indirect d (blocks.getD i 0) subsize st fm
        (blocks.set i e, ns - subsize, st, fm))
      (blocks, nsectors, st, fm)
    let (blocks, _, st, fm) := r
    let st := fs_cache_write entry (encInd blocks) st
    (entry, st, fm)

/-- `inode_deallocate_indirect (entry, nsectors, depth)` (depth first, structurally).
Depth 0 releases the one data sector; positive depth reads the indirection block,
recurses into the slots covering `nsectors` leaves, then releases the block itself. -/
def inode_deallocate_indirect : Nat → Nat → Nat → CacheState → FreeMap → CacheState × FreeMap
  | 0, entry, _nsectors, st, fm => (st, free_map_release entry fm)
  | d + 1, entry, nsectors, st, fm =>
    let (b, st) := fs_cache_read entry st
    let blocks := decInd b
    let n := if d = 0 then 1 else INDIRECT_BLOCKS
    let l := (nsectors + n - 1) / n
    let r := (List.range l).foldl
      (fun acc i =>
        let (ns, st, fm) := acc
        let size := min ns n
        let (st, fm) := inode_deallocate_indirect d (blocks.getD i 0) size st fm
        (ns - size, st, fm))
      (nsectors, st, fm)
    let (_, st, fm) := r
    (st, free_map_release entry fm)

/-- `inode_allocate (disk_inode)`: fill the direct array (zero-filling each data
sector through the cache), then the indirect subtree at depth 1, then the third tier.
The third tier reproduces cache.c line 605 verbatim:
`inode_allocate_indirect (&disk_inode->indirect_block, l, 1);`
that is, it passes the `indirect_block` field again at depth 1 (not
`double_indirect_block` at depth 2). -/
def inode_allocate (disk_inode : inode_disk) (st : CacheState) (fm : FreeMap) :
    Bool × inode_disk × CacheState × FreeMap :=
  if disk_inode.length < 0 then (false, disk_inode, st, fm)
  else
    let nsectors := bytes_to_sectors disk_inode.length
    let l := min nsectors DIRECT_BLOCKS
    let r := (List.range l).foldl
      (fun acc i =>
        let (direct, st, fm) := acc
        let (s, fm) := free_map_allocate fm
        let st := fs_cache_write s zerosBlock st
        (direct.set i s, st, fm))
      (disk_inode.direct_blocks, st, fm)
    let (direct, st, fm) := r
    let disk_inode := { disk_inode with direct_blocks := direct }
    let nsectors := nsectors - l
    if nsectors = 0 then (true, disk_inode, st, fm)
    else
      let l := min nsectors INDIRECT_BLOCKS
      let (e, st, fm) := inode_allocate_indirect 1 disk_inode.indirect_block l st fm
      let disk_inode := { disk_inode with indirect_block := e }
      let nsectors := nsectors - l
      if nsectors = 0 then (true, disk_inode, st, fm)
      else
        let l := min nsectors DOUBLE_INDIRECT_BLOCKS
        let (e, st, fm) := inode_allocate_indirect 1 disk_inode.indirect_block l st fm
        let disk_inode := { disk_inode with indirect_block := e }
        let nsectors := nsectors - l
        if nsectors = 0 then (true, disk_inode, st, fm)
        else (false, disk_inode, st, fm)

/-- `inode_deallocate (inode)`: release the direct sectors, then the indirect
subtree at depth 1, then the double-indirect subtree at depth 2. -/
def inode_deallocate (ino : inode) (st : CacheState) (fm : FreeMap) :
    Bool × CacheState × FreeMap :=
  if ino.data.length < 0 then (false, st, fm)
  else
    let nsectors := bytes_to_sectors ino.data.length
    let l := min nsectors DIRECT_BLOCKS
    let fm := (List.range l).foldl
      (fun fm i => free_map_release (ino.data.direct_blocks.getD i 0) fm) fm
    let nsectors := nsectors - l
    let l1 := min nsectors INDIRECT_BLOCKS
    let (st, fm) :=
      if 0 < l1 then inode_deallocate_indirect 1 ino.data.indirect_block l1 st fm
      else (st, fm)
    let nsectors := nsectors - l1
    let l2 := min nsectors DOUBLE_INDIRECT_BLOCKS
    let (st, fm) :=
      if 0 < l2 then inode_deallocate_indirect 2 ino.data.double_indirect_block l2 st fm
      else (st, fm)
    (true, st, fm)

/-- `inode_create (sector, length)`: build a zeroed record (calloc), stamp length and
magic, run the allocation engine, and on success write the record itself through the
cache to `sector`.  (`ASSERT (length >= 0)` holds at every use below; a negative
length also makes the allocation engine itself report failure.) -/
def inode_create (sector : Nat) (length : Int) (st : CacheState) (fm : FreeMap) :
    Bool × CacheState × FreeMap :=
  let disk_inode : inode_disk :=
    { length := length, magic := INODE_MAGIC,
      direct_blocks := List.replicate DIRECT_BLOCKS 0,
      indirect_block := 0, double_indirect_block := 0 }
  let (ok, disk_inode, st, fm) := inode_allocate disk_inode st fm
  if ok then (true, fs_cache_write sector (encNode disk_inode) st, fm)
  else (false, st, fm)

/-- `index_to_sector (disk, index)`: three-tier block map.  `none` models the
`(block_sector_t) -1` sentinel for an out-of-range logical index.  Reading the
indirection blocks goes through the cache, so the cache state is threaded. -/
def index_to_sector (disk : inode_disk) (index : Int) (st : CacheState) :
    Option Nat × CacheState :=
  if index < (DIRECT_BLOCKS : Int) then
    (some (disk.direct_blocks.getD index.toNat 0), st)
  else if index < ((DIRECT_BLOCKS : Int) + (INDIRECT_BLOCKS : Int)) then
    let (b, st) := fs_cache_read disk.indirect_block st
    (some ((decInd b).getD (index - (DIRECT_BLOCKS : Int)).toNat 0), st)
  else if index <
      ((DIRECT_BLOCKS : Int) + (INDIRECT_BLOCKS : Int) + (DOUBLE_INDIRECT_BLOCKS : Int)) then
    let base := (DIRECT_BLOCKS : Int) + (INDIRECT_BLOCKS : Int)
    let index_first := ((index - base).tdiv (INDIRECT_BLOCKS : Int)).toNat
    let index_second := ((index - base).tmod (INDIRECT_BLOCKS : Int)).toNat
    let (b, st) := fs_cache_read disk.double_indirect_block st
    let (b2, st) := fs_cache_read ((decInd b).getD index_first 0) st
    (some ((decInd b2).getD index_second 0), st)
  else (none, st)

/-- `byte_to_sector (inode, pos)`: `index_to_sector` at `pos / BLOCK_SECTOR_SIZE`
when `0 <= pos < length`, otherwise the -1 sentinel (`none`). -/
def byte_to_sector (ino : inode) (pos : Int) (st : CacheState) : Option Nat × CacheState :=
  if 0 ≤ pos ∧ pos < ino.data.length then
    index_to_sector ino.data (pos.tdiv (BLOCK_SECTOR_SIZE : Int)) st
  else (none, st)

/-- `inode_length`. -/
def inode_length (ino : inode) : Int := ino.data.length

/-- `inode_reopen`: one more opener of the same handle. -/
def inode_reopen (ino : inode) : inode := { ino with open_cnt := ino.open_cnt + 1 }

/-- `inode_open (sector)`: scan the open-inode list front to back; a hit is reopened
in place and returned, otherwise a fresh record (open_cnt 1, data read through the
cache) is pushed on the front.  Returns the handle, the registry and the cache. -/
def inode_open (sector : Nat) (open_inodes : List inode) (st : CacheState) :
    inode × List inode × CacheState :=
  match find_first (fun ino => ino.sector == sector) open_inodes with
  | some i =>
    let ino := inode_reopen (open_inodes.getD i default)
    (ino, open_inodes.set i ino, st)
  | none =>
    let (b, st) := fs_cache_read sector st
    let ino : inode := { sector := sector, open_cnt := 1, removed := false,
                         deny_write_cnt := 0, data := decNode b }
    (ino, ino :: open_inodes, st)

/-- `inode_close` on the (unique) registry record for `sector`: decrement
`open_cnt`; at zero remove the record and, if it was marked removed, release its own
sector and deallocate its sector tree.  A `none` find models the NULL handle, which
the C code ignores. -/
def inode_close (sector : Nat) (open_inodes : List inode) (st : CacheState) (fm : FreeMap) :
    List inode × CacheState × FreeMap :=
  match find_first (fun ino => ino.sector == sector) open_inodes with
  | none => (open_inodes, st, fm)
  | some i =>
    let ino := open_inodes.getD i default
    let cnt := ino.open_cnt - 1
    if cnt = 0 then
      let rest := open_inodes.eraseIdx i
      if ino.removed then
        let fm := free_map_release ino.sector fm
        let (_, st, fm) := inode_deallocate ino st fm
        (rest, st, fm)
      else (rest, st, fm)
    else (open_inodes.set i { ino with open_cnt := cnt }, st, fm)

/-- `inode_remove`. -/
def inode_remove (ino : inode) : inode := { ino with removed := true }

/-- `inode_deny_write`. -/
def inode_deny_write (ino : inode) : inode :=
  { ino with deny_write_cnt := ino.deny_write_cnt + 1 }

/-- `inode_allow_write`. -/
def inode_allow_write (ino : inode) : inode :=
  { ino with deny_write_cnt := ino.deny_write_cnt - 1 }

/-- The loop of `inode_read_at`, with fuel (each iteration transfers at least one
byte, so `size` fuel suffices).  The bytes read accumulate in `acc`; a full aligned
sector is copied whole, a partial chunk is cut out of the sector read into the
bounce buffer. -/
def inode_read_at_go (ino : inode) :
    Nat → Int → Int → List Nat → CacheState → List Nat × CacheState
  | 0, _size, _offset, acc, st => (acc, st)
  | fuel + 1, size, offset, acc, st =>
    if size ≤ 0 then (acc, st)
    else
      let (sec?, st) := byte_to_sector ino offset st
      let sector_ofs := offset.tmod (BLOCK_SECTOR_SIZE : Int)
      let inode_left := inode_length ino - offset
      let sector_left := (BLOCK_SECTOR_SIZE : Int) - sector_ofs
      let min_left := if inode_left < sector_left then inode_left else sector_left
      let chunk_size := if size < min_left then size else min_left
      if chunk_size ≤ 0 then (acc, st)
      else
        let sector_idx := sec?.getD 0
        let (b, st) := fs_cache_read sector_idx st
        let piece :=
          if sector_ofs = 0 ∧ chunk_size = (BLOCK_SECTOR_SIZE : Int) then b
          else (b.drop sector_ofs.toNat).take chunk_size.toNat
        inode_read_at_go ino fuel (size - chunk_size) (offset + chunk_size) (acc ++ piece) st

/-- `inode_read_at (inode, buffer, size, offset)`: returns the bytes read (their
count is the returned list's length, short at end of file) and the cache state. -/
def inode_read_at (ino : inode) (size offset : Int) (st : CacheState) :
    List Nat × CacheState :=
  inode_read_at_go ino size.toNat size offset [] st

/-- The loop of `inode_write_at`, with fuel.  A full aligned sector goes straight
through the cache; a partial chunk is read-modify-written through the bounce buffer
(reading the old sector only when bytes outside the chunk must be preserved,
otherwise starting from a zeroed buffer). -/
def inode_write_at_go (ino : inode) (buffer : List Nat) :
    Nat → Int → Int → Int → CacheState → Int × CacheState
  | 0, _size, _offset, bytes_written, st => (bytes_written, st)
  | fuel + 1, size, offset, bytes_written, st =>
    if size ≤ 0 then (bytes_written, st)
    else
      let (sec?, st) := byte_to_sector ino offset st
      let sector_ofs := offset.tmod (BLOCK_SECTOR_SIZE : Int)
      let inode_left := inode_length ino - offset
      let sector_left := (BLOCK_SECTOR_SIZE : Int) - sector_ofs
      let min_left := if inode_left < sector_left then inode_left else sector_left
      let chunk_size := if size < min_left then size else min_left
      if chunk_size ≤ 0 then (bytes_written, st)
      else
        let sector_idx := sec?.getD 0
        let src := (buffer.drop bytes_written.toNat).take chunk_size.toNat
        let st :=
          if sector_ofs = 0 ∧ chunk_size = (BLOCK_SECTOR_SIZE : Int) then
            fs_cache_write sector_idx src st
          else
            let (bounce, st) :=
              if 0 < sector_ofs ∨ chunk_size < sector_left then fs_cache_read sector_idx st
              else (zerosBlock, st)
            let bounce := bounce.take sector_ofs.toNat ++ src ++
              bounce.drop (sector_ofs.toNat + chunk_size.toNat)
            fs_cache_write sector_idx bounce st
        inode_write_at_go ino buffer fuel (size - chunk_size) (offset + chunk_size)
          (bytes_written + chunk_size) st

/-- `inode_write_at (inode, buffer, size, offset)`.  With a positive
`deny_write_cnt` it returns 0 at once, leaving all state untouched.  Next it probes
the end byte: if `byte_to_sector (inode, offset + size - 1)` is the -1 sentinel the
code hits `PANIC ("extendable fs not implement")`, modelled as `none`.  Otherwise the
write loop runs and the bytes-written count and the cache state are returned. -/
def inode_write_at (ino : inode) (buffer : List Nat) (size offset : Int)
    (st : CacheState) : Option (Int × CacheState) :=
  if ino.deny_write_cnt ≠ 0 then some (0, st)
  else
    let (sec?, st1) := byte_to_sector ino (offset + size - 1) st
    match sec? with
    | none => none
    | some _ => some (inode_write_at_go ino buffer size.toNat size offset 0 st1)

/-- A device whose every sector starts as all zero bytes. -/
def device0 : Nat → List Nat := fun _ => zerosBlock

/-- Pristine cache over the zero device. -/
def st0 : CacheState := fs_cache_init device0

/-- Pristine free map; see `FreeMap` on why `next` starts at 1. -/
def fm0 : FreeMap := { next := 1, allocated := [], released := [] }

/-- A freshly calloc-ed inode record for a 253-sector file
(124 direct + 128 indirect + 1 double-indirect sector), as `inode_create` builds it. -/
def disk253 : inode_disk :=
  { length := 253 * 512, magic := INODE_MAGIC,
    direct_blocks := List.replicate DIRECT_BLOCKS 0,
    indirect_block := 0, double_indirect_block := 0 }

/-- Run the allocation engine on the 253-sector record from pristine state. -/
def alloc253 : Bool × inode_disk × CacheState × FreeMap := inode_allocate disk253 st0 fm0

/-- The in-memory inode holding the allocated 253-sector record. -/
def ino253 : inode :=
  { sector := 0, open_cnt := 1, removed := true, deny_write_cnt := 0, data := alloc253.2.1 }

/-- Deallocate the 253-sector record in the post-allocation cache and free-map state. -/
def dealloc253 : Bool × CacheState × FreeMap :=
  inode_deallocate ino253 alloc253.2.2.1 alloc253.2.2.2

/-- Scenario of claim C7: obtain a sector for the inode record, create a 1-sector
(512-byte) file, open it, write the single byte 9 at offset 0, then read the whole
sector back; the result is the bytes-written count and the 512 bytes read. -/
def scenario7 : Option (Int × List Nat) :=
  let (s, fm) := free_map_allocate fm0
  let (ok, st, _fm) := inode_create s 512 st0 fm
  if ok = false then none
  else
    let (ino, _reg, st) := inode_open s [] st
    match inode_write_at ino [9] 1 0 st with
    | none => none
    | some (n, st) => some (n, (inode_read_at ino 512 0 st).1)

/-- A cache operation, for stating trace properties of the sector cache. -/
inductive CacheOp where
  | rd : Nat → CacheOp
  | wr : Nat → List Nat → CacheOp
deriving Repr, DecidableEq

/-- Run one cache operation for its state effect. -/
def execOp (st : CacheState) : CacheOp → CacheState
  | .rd s => (fs_cache_read s st).2
  | .wr s b => fs_cache_write s b st

/-- Run a trace of cache operations. -/
def execOps (ops : List CacheOp) (st : CacheState) : CacheState := ops.foldl execOp st

/-- The last value written to sector `s` in a trace, if any (later operations win). -/
def lastWrite : List CacheOp → Nat → Option (List Nat)
  | [], _ => none
  | CacheOp.rd _ :: rest, s => lastWrite rest s
  | CacheOp.wr s' b :: rest, s =>
    match lastWrite rest s with
    | some c => some c
    | none => if s' = s then some b else none

/-- The entry at index `i` of the cache array. -/
def entryAt (st : CacheState) (i : Nat) : cache_entry_t := st.cache.getD i default

/-- The state invariant of the sector cache: 64 lines, occupied lines hold pairwise
distinct sectors, and a clean occupied line agrees with the device. -/
def CacheInv (st : CacheState) : Prop :=
  st.cache.length = CACHE_SIZE ∧
  (∀ i j, i < CACHE_SIZE → j < CACHE_SIZE → i ≠ j →
    (entryAt st i).free = false → (entryAt st j).free = false →
    (entryAt st i).sector ≠ (entryAt st j).sector) ∧
  (∀ i, i < CACHE_SIZE → (entryAt st i).free = false → (entryAt st i).dirty = false →
    st.device (entryAt st i).sector = (entryAt st i).data)

/-- The current content of sector `s` as the cache layer sees it: the resident
line's data if one exists, the device content otherwise. -/
def content (st : CacheState) (s : Nat) : List Nat :=
  match fs_cache_find s st with
  | some i => (entryAt st i).data
  | none => st.device s

/-- Events against the inode manager, for stating registry properties. -/
inductive InodeEvent where
  | opn : Nat → InodeEvent
  | cls : Nat → InodeEvent
deriving Repr, DecidableEq

/-- Full filesystem-layer state: open-inode registry, cache, free map. -/
structure FsState where
  open_inodes : List inode
  st : CacheState
  fm : FreeMap

/-- Run one open/close event. -/
def stepEvent (σ : FsState) : InodeEvent → FsState
  | .opn s =>
    let (_, reg, st) := inode_open s σ.open_inodes σ.st
    { open_inodes := reg, st := st, fm := σ.fm }
  | .cls s =>
    let (reg, st, fm) := inode_close s σ.open_inodes σ.st σ.fm
    { open_inodes := reg, st := st, fm := fm }

/-- A trace is valid when every close is issued against a live handle (the caller
holds a handle it obtained from open and has not yet closed). -/
def validFrom : FsState → List InodeEvent → Prop
  | _, [] => True
  | σ, .opn s :: t => validFrom (stepEvent σ (.opn s)) t
  | σ, .cls s :: t =>
    (∃ ino ∈ σ.open_inodes, ino.sector = s) ∧ validFrom (stepEvent σ (.cls s)) t

/-- Run a trace of open/close events. -/
def runEvents (σ : FsState) (t : List InodeEvent) : FsState := t.foldl stepEvent σ

/-- Number of opens of sector `s` in a trace. -/
def countOpens (t : List InodeEvent) (s : Nat) : Nat :=
  t.countP (fun e => e == InodeEvent.opn s)

/-- Number of closes of sector `s` in a trace. -/
def countCloses (t : List InodeEvent) (s : Nat) : Nat :=
  t.countP (fun e => e == InodeEvent.cls s)

/-- Initial filesystem state over a device. -/
def initFs (device : Nat → List Nat) : FsState :=
  { open_inodes := [], st := fs_cache_init device, fm := fm0 }

/-- A free cache line as `fs_cache_init` builds it (for concrete states below). -/
def freeLine : cache_entry_t :=
  { sector := 0, data := zerosBlock, access := false, dirty := false, free := true }

/-- A concrete open inode over a fully direct 512-byte file. -/
def inoW : inode :=
  { sector := 1, open_cnt := 1, removed := false, deny_write_cnt := 0,
    data := { length := 512, magic := INODE_MAGIC,
              direct_blocks := List.replicate DIRECT_BLOCKS 7,
              indirect_block := 0, double_indirect_block := 0 } }

/-- A concrete open inode of length 0 (every byte offset is past end-of-file). -/
def inoEmpty : inode :=
  { sector := 1, open_cnt := 1, removed := false, deny_write_cnt := 0,
    data := { length := 0, magic := INODE_MAGIC,
              direct_blocks := List.replicate DIRECT_BLOCKS 0,
              indirect_block := 0, double_indirect_block := 0 } }

/-- `inoEmpty` with one writer currently denied. -/
def inoDeny : inode := { inoEmpty with deny_write_cnt := 1 }

/-- A cache whose line 0 holds dirty data for sector 7, all other lines free. -/
def stDirty : CacheState :=
  { cache := { sector := 7, data := [1, 2, 3], access := false, dirty := true, free := false }
      :: List.replicate (CACHE_SIZE - 1) freeLine,
    clock := 0, device := device0 }

/-- A cache whose line 0 holds a just-touched (accessed) line for sector 3. -/
def stAcc : CacheState :=
  { cache := { sector := 3, data := [5], access := true, dirty := false, free := false }
      :: List.replicate (CACHE_SIZE - 1) freeLine,
    clock := 0, device := device0 }

/-- A concrete open/close trace: sector 5 opened twice and closed once. -/
def tW : List InodeEvent := [InodeEvent.opn 5, InodeEvent.opn 5, InodeEvent.cls 5]

/-- Registry invariant relative to a baseline count `b`: sectors are pairwise
distinct, every record's `open_cnt` is `b` of its sector and at least 1, and absent
sectors have baseline 0. -/
def RegInv (reg : List inode) (b : Nat → Int) : Prop :=
  (reg.map (fun ino => ino.sector)).Nodup ∧
  (∀ ino ∈ reg, ino.open_cnt = b ino.sector ∧ 1 ≤ ino.open_cnt) ∧
  (∀ s, (∀ ino ∈ reg, ino.sector ≠ s) → b s = 0)

theorem list_getD_set_self {α : Type} (l : List α) (i : Nat) (x d : α) (h : i < l.length) :
    (l.set i x).getD i d = x := by
  rw [List.getD_eq_getElem?_getD, List.getElem?_set_self h]
  rfl

theorem list_getD_set_ne {α : Type} (l : List α) {i j : Nat} (x d : α) (h : i ≠ j) :
    (l.set i x).getD j d = l.getD j d := by
  rw [List.getD_eq_getElem?_getD, List.getElem?_set_ne h, List.getD_eq_getElem?_getD]

theorem list_set_getD_self {α : Type} (l : List α) (i : Nat) (d : α) (h : i < l.length) :
    l.set i (l.getD i d) = l := by
  induction l generalizing i with
  | nil => simp at h
  | cons a t ih =>
    cases i with
    | zero => rfl
    | succ n =>
      rw [List.getD_cons_succ, List.set_cons_succ, ih n (by simpa using h)]

theorem list_getElem_eraseIdx_of_ne {α : Type} (l : List α) (i j : Nat)
    (hj : j < l.length) (hne : j ≠ i) : l[j] ∈ l.eraseIdx i := by
  induction l generalizing i j with
  | nil => simp at hj
  | cons a t ih =>
    cases i with
    | zero =>
      cases j with
      | zero => omega
      | succ m => simpa using List.getElem_mem (l := t) (n := m) (by simpa using hj)
    | succ n =>
      cases j with
      | zero => simp [List.eraseIdx]
      | succ m =>
        have := ih n m (by simpa using hj) (by omega)
        simpa [List.eraseIdx] using Or.inr this

theorem list_getElem_not_mem_eraseIdx {α : Type} (l : List α) (i : Nat)
    (hi : i < l.length) (hnd : l.Nodup) : l[i] ∉ l.eraseIdx i := by
  induction l generalizing i with
  | nil => simp at hi
  | cons a t ih =>
    rw [List.nodup_cons] at hnd
    cases i with
    | zero => simpa using hnd.1
    | succ n =>
      intro hmem
      simp only [List.eraseIdx, List.mem_cons] at hmem
      rcases hmem with h | h
      · exact hnd.1 (h ▸ List.getElem_mem (l := t) (n := n) (by simpa using hi))
      · exact ih n (by simpa using hi) hnd.2 h

theorem find_first_lt_length {α : Type} {p : α → Bool} {l : List α} {i : Nat}
    (h : find_first p l = some i) : i < l.length := by
  induction l generalizing i with
  | nil => simp [find_first] at h
  | cons a t ih =>
    by_cases hp : p a
    · simp only [find_first, hp, if_true, Option.some.injEq] at h
      simp only [List.length_cons]
      omega
    · simp only [find_first, hp, Bool.false_eq_true, if_false, Option.map_eq_some'] at h
      obtain ⟨j, hj, rfl⟩ := h
      have := ih hj
      simp only [List.length_cons]
      omega

theorem find_first_getD {α : Type} {p : α → Bool} {l : List α} {i : Nat} (d : α)
    (h : find_first p l = some i) : p (l.getD i d) = true := by
  induction l generalizing i with
  | nil => simp [find_first] at h
  | cons a t ih =>
    by_cases hp : p a
    · simp only [find_first, hp, if_true, Option.some.injEq] at h
      subst h
      simpa [List.getD_cons_zero] using hp
    · simp only [find_first, hp, Bool.false_eq_true, if_false, Option.map_eq_some'] at h
      obtain ⟨j, hj, rfl⟩ := h
      rw [List.getD_cons_succ]
      exact ih hj

theorem find_first_eq_none_iff {α : Type} {p : α → Bool} {l : List α} (d : α) :
    find_first p l = none ↔ ∀ j, j < l.length → p (l.getD j d) = false := by
  induction l with
  | nil => simp [find_first]
  | cons a t ih =>
    by_cases hp : p a
    · simp only [find_first, hp, if_true]
      constructor
      · intro h; exact absurd h (by simp)
      · intro h
        have h0 := h 0 (by simp)
        rw [List.getD_cons_zero] at h0
        rw [h0] at hp
        simp at hp
    · simp only [find_first, hp, Bool.false_eq_true, if_false, Option.map_eq_none']
      constructor
      · intro h j hj
        cases j with
        | zero => rw [List.getD_cons_zero]; simpa using hp
        | succ m =>
          rw [List.getD_cons_succ]
          exact (ih.mp h) m (by simpa using hj)
      · intro h
        refine ih.mpr (fun j hj => ?_)
        have := h (j + 1) (by simpa using hj)
        rwa [List.getD_cons_succ] at this

theorem find_first_unique {α : Type} {p : α → Bool} {l : List α} {i : Nat} (d : α)
    (hi : i < l.length) (hp : p (l.getD i d) = true)
    (huniq : ∀ j, j < l.length → j ≠ i → p (l.getD j d) = false) :
    find_first p l = some i := by
  induction l generalizing i with
  | nil => simp at hi
  | cons a t ih =>
    cases i with
    | zero =>
      rw [List.getD_cons_zero] at hp
      simp [find_first, hp]
    | succ n =>
      have h0 : p a = false := by
        have := huniq 0 (by simp) (by omega)
        rwa [List.getD_cons_zero] at this
      rw [List.getD_cons_succ] at hp
      simp only [find_first, h0, Bool.false_eq_true, if_false]
      rw [ih (i := n) (by simpa using hi) hp (fun j hj hne => by
        have := huniq (j + 1) (by simpa using hj) (by omega)
        rwa [List.getD_cons_succ] at this)]
      rfl

theorem find_first_congr {α β : Type} {p : α → Bool} {q : β → Bool}
    {l : List α} {l' : List β} (d : α) (d' : β) (hlen : l.length = l'.length)
    (h : ∀ j, j < l.length → p (l.getD j d) = q (l'.getD j d')) :
    find_first p l = find_first q l' := by
  induction l generalizing l' with
  | nil =>
    cases l' with
    | nil => rfl
    | cons b t' => simp at hlen
  | cons a t ih =>
    cases l' with
    | nil => simp at hlen
    | cons b t' =>
      have h0 : p a = q b := by simpa [List.getD] using h 0 (by simp)
      have ht : find_first p t = find_first q t' :=
        ih (by simpa using hlen) (fun j hj => by simpa [List.getD] using h (j + 1) (by simpa using hj))
      simp only [find_first, h0, ht]

theorem fs_cache_find_some {s : Nat} {st : CacheState} {i : Nat}
    (h : fs_cache_find s st = some i) :
    i < st.cache.length ∧ (entryAt st i).free = false ∧ (entryAt st i).sector = s := by
  refine ⟨find_first_lt_length h, ?_⟩
  have hp := find_first_getD default h
  simp only [Bool.and_eq_true, Bool.not_eq_true', beq_iff_eq] at hp
  exact ⟨hp.1, hp.2⟩

theorem fs_cache_find_none_iff {s : Nat} {st : CacheState} :
    fs_cache_find s st = none ↔
      ∀ j, j < st.cache.length →
        (entryAt st j).free = true ∨ (entryAt st j).sector ≠ s := by
  rw [fs_cache_find, find_first_eq_none_iff default]
  constructor
  · intro h j hj
    have hj2 := h j hj
    rw [show st.cache.getD j default = entryAt st j from rfl] at hj2
    rw [Bool.and_eq_false_iff] at hj2
    rcases hj2 with h1 | h1
    · exact Or.inl (by simpa using h1)
    · exact Or.inr (beq_eq_false_iff_ne.mp h1)
  · intro h j hj
    rw [show st.cache.getD j default = entryAt st j from rfl, Bool.and_eq_false_iff]
    rcases h j hj with h1 | h1
    · exact Or.inl (by simp [h1])
    · exact Or.inr (beq_eq_false_iff_ne.mpr h1)

theorem fs_cache_find_unique {s : Nat} {st : CacheState} {i : Nat}
    (hInv : CacheInv st) (hi : i < st.cache.length)
    (hfree : (entryAt st i).free = false) (hsec : (entryAt st i).sector = s) :
    fs_cache_find s st = some i := by
  refine find_first_unique default hi ?_ ?_
  · rw [show st.cache.getD i default = entryAt st i from rfl, hfree, hsec]
    simp
  · intro j hj hne
    obtain ⟨hlen, hnodup, _⟩ := hInv
    rw [show st.cache.getD j default = entryAt st j from rfl, Bool.and_eq_false_iff]
    by_cases hf : (entryAt st j).free = true
    · exact Or.inl (by simp [hf])
    · have hf2 : (entryAt st j).free = false := by simpa using hf
      have hne2 : (entryAt st j).sector ≠ s := by
        have := hnodup j i (by omega) (by omega) hne hf2 hfree
        rwa [hsec] at this
      exact Or.inr (beq_eq_false_iff_ne.mpr hne2)

/-- C5: with writes allowed and a positive size, an end byte that maps to the
"no sector" sentinel (past the allocated length) makes `inode_write_at` take the
fatal-abort path (`PANIC`, modelled as `none`) instead of a short or truncated
write or growing the file. -/
theorem c5_write_past_end_is_fatal (ino : inode) (buffer : List Nat) (size offset : Int)
    (st : CacheState) (hdeny : ino.deny_write_cnt = 0) (hsize : 0 < size)
    (hend : (byte_to_sector ino (offset + size - 1) st).1 = none) :
    inode_write_at ino buffer size offset st = none := by
  rcases hbs : byte_to_sector ino (offset + size - 1) st with ⟨sec?, st1⟩
  have hs : sec? = none := by rw [hbs] at hend; exact hend
  subst hs
  simp [inode_write_at, hdeny, hbs]

theorem c5_witness : 0 < (1 : Int) ∧ inode_write_at inoEmpty [1] 1 0 st0 = none :=
  ⟨by decide, c5_write_past_end_is_fatal inoEmpty [1] 1 0 st0 (by decide) (by decide) (by decide)⟩

/-- C6: `byte_to_sector` delegates to the block-map translation `index_to_sector`
at logical index `pos / 512` exactly when `0 <= pos < length`, and yields the
"no sector" sentinel (`none`, the C `-1`) for every position outside that range. -/
theorem c6_byte_to_sector_range (ino : inode) (pos : Int) (st : CacheState) :
    (0 ≤ pos ∧ pos < ino.data.length →
      byte_to_sector ino pos st =
        index_to_sector ino.data (pos.tdiv (BLOCK_SECTOR_SIZE : Int)) st)
    ∧ (¬(0 ≤ pos ∧ pos < ino.data.length) → byte_to_sector ino pos st = (none, st)) := by
  constructor <;> intro h <;> simp [byte_to_sector, h]

theorem c6_witness :
    byte_to_sector inoW 5 st0 = index_to_sector inoW.data ((5 : Int).tdiv (BLOCK_SECTOR_SIZE : Int)) st0
    ∧ byte_to_sector inoW 600 st0 = (none, st0) :=
  ⟨(c6_byte_to_sector_range inoW 5 st0).1 (by decide),
   (c6_byte_to_sector_range inoW 600 st0).2 (by decide)⟩

/-- C10: a positive `deny_write_cnt` makes `inode_write_at` return 0 immediately
for any buffer, size and offset, leaving the cache and device state untouched;
the write loop (the only place bytes are ever written) is reached only when
`deny_write_cnt` is zero. -/
theorem c10_deny_write_blocks_all_writes (ino : inode) (buffer : List Nat)
    (size offset : Int) (st : CacheState) (h : 0 < ino.deny_write_cnt) :
    inode_write_at ino buffer size offset st = some (0, st) := by
  have hne : ino.deny_write_cnt ≠ 0 := by omega
  simp [inode_write_at, hne]

theorem c10_witness : 0 < inoDeny.deny_write_cnt ∧ inode_write_at inoDeny [1] 1 0 st0 = some (0, st0) :=
  ⟨by decide, c10_deny_write_blocks_all_writes inoDeny [1] 1 0 st0 (by decide)⟩

/-- The allocation engine never assigns the `double_indirect_block` field: its
third tier goes through `indirect_block` again (cache.c line 605). -/
theorem inode_allocate_keeps_double_indirect (d : inode_disk) (st : CacheState)
    (fm : FreeMap) :
    (inode_allocate d st fm).2.1.double_indirect_block = d.double_indirect_block := by
  unfold inode_allocate
  repeat' (first | split | dsimp only)

theorem list_getD_replicate {α : Type} (a d : α) {n i : Nat} (h : i < n) :
    (List.replicate n a).getD i d = a := by
  induction n generalizing i with
  | zero => omega
  | succ m ih =>
    cases i with
    | zero => rfl
    | succ j => rw [List.replicate_succ, List.getD_cons_succ]; exact ih (by omega)

theorem list_getD_eq_default {α : Type} (l : List α) (d : α) {n : Nat} (h : l.length ≤ n) :
    l.getD n d = d := by
  rw [List.getD_eq_getElem?_getD, List.getElem?_eq_none (by omega)]
  rfl

theorem cacheInv_init (dev : Nat → List Nat) : CacheInv (fs_cache_init dev) := by
  have hent : ∀ i, i < CACHE_SIZE → (entryAt (fs_cache_init dev) i).free = true := by
    intro i hi
    have : entryAt (fs_cache_init dev) i =
        { sector := 0, data := zerosBlock, access := false, dirty := false, free := true } := by
      unfold entryAt fs_cache_init
      exact list_getD_replicate _ _ hi
    rw [this]
  refine ⟨by simp [fs_cache_init], ?_, ?_⟩
  · intro i j hi hj hne hfi hfj
    rw [hent i hi] at hfi
    simp at hfi
  · intro i hi hfi _
    rw [hent i hi] at hfi
    simp at hfi

theorem fs_cache_evict_go_isSome (fuel : Nat) :
    ∀ (st : CacheState), st.cache.countP (fun e => e.access) < fuel →
      (fs_cache_evict_go fuel st).1.isSome = true := by
  induction fuel with
  | zero => intro st h; omega
  | succ n ih =>
    intro st h
    rw [fs_cache_evict_go]
    dsimp only
    by_cases hfree : (st.cache.getD (st.clock % CACHE_SIZE) default).free = true
    · rw [if_pos hfree]
      rfl
    · rw [if_neg hfree]
      by_cases hacc : (st.cache.getD (st.clock % CACHE_SIZE) default).access = true
      · rw [if_pos hacc]
        apply ih
        have hkl : st.clock % CACHE_SIZE < st.cache.length := by
          by_contra hout
          push_neg at hout
          rw [list_getD_eq_default _ _ hout] at hacc
          simp at hacc
        have hpk : (st.cache[st.clock % CACHE_SIZE]).access = true := by
          rw [← List.getD_eq_getElem st.cache default hkl]; exact hacc
        have hpos : 0 < st.cache.countP (fun e => e.access) :=
          List.countP_pos_iff.mpr ⟨_, List.getElem_mem hkl, hpk⟩
        rw [List.countP_set _ _ _ _ hkl]
        simp only [hpk, if_true, Bool.false_eq_true, if_false]
        omega
      · rw [if_neg hacc]
        rfl

theorem fs_cache_evict_eq (st : CacheState) (hlen : st.cache.length = CACHE_SIZE) :
    fs_cache_evict_go (CACHE_SIZE + 1) st =
      (some (fs_cache_evict st).1, (fs_cache_evict st).2) := by
  have h := fs_cache_evict_go_isSome (CACHE_SIZE + 1) st (by
    have h2 : st.cache.countP (fun e => e.access) ≤ st.cache.length :=
      List.countP_le_length _
    omega)
  rcases hE : fs_cache_evict_go (CACHE_SIZE + 1) st with ⟨o, stx⟩
  cases o with
  | none => rw [hE] at h; simp at h
  | some j => simp [fs_cache_evict, hE]

theorem clearAccess_spec (st st' : CacheState) (k c : Nat) (av : Bool)
    (hkl : k < st.cache.length) (hInv : CacheInv st)
    (hst' : st' = { st with
      cache := st.cache.set k { st.cache.getD k default with access := av },
      clock := c }) :
    CacheInv st' ∧ (∀ s, fs_cache_find s st' = fs_cache_find s st) ∧
    (∀ s, content st' s = content st s) ∧ st'.cache.length = st.cache.length := by
  subst hst'
  obtain ⟨hlen, hnodup, hclean⟩ := hInv
  have hget_self : entryAt { st with
      cache := st.cache.set k { st.cache.getD k default with access := av },
      clock := c } k = { st.cache.getD k default with access := av } :=
    list_getD_set_self _ _ _ _ hkl
  have hget_ne : ∀ j, j ≠ k → entryAt { st with
      cache := st.cache.set k { st.cache.getD k default with access := av },
      clock := c } j = entryAt st j := by
    intro j hj
    exact list_getD_set_ne _ _ _ (fun h => hj h.symm)
  have hfields : ∀ j, (entryAt { st with
      cache := st.cache.set k { st.cache.getD k default with access := av },
      clock := c } j).free = (entryAt st j).free ∧
      (entryAt { st with
      cache := st.cache.set k { st.cache.getD k default with access := av },
      clock := c } j).sector = (entryAt st j).sector ∧
      (entryAt { st with
      cache := st.cache.set k { st.cache.getD k default with access := av },
      clock := c } j).dirty = (entryAt st j).dirty ∧
      (entryAt { st with
      cache := st.cache.set k { st.cache.getD k default with access := av },
      clock := c } j).data = (entryAt st j).data := by
    intro j
    by_cases hjk : j = k
    · subst hjk
      rw [hget_self]
      exact ⟨rfl, rfl, rfl, rfl⟩
    · rw [hget_ne j hjk]
      exact ⟨rfl, rfl, rfl, rfl⟩
  have hslen : ({ st with
      cache := st.cache.set k { st.cache.getD k default with access := av },
      clock := c } : CacheState).cache.length = st.cache.length := by
    simp [List.length_set]
  have hfind : ∀ s, fs_cache_find s { st with
      cache := st.cache.set k { st.cache.getD k default with access := av },
      clock := c } = fs_cache_find s st := by
    intro s
    apply find_first_congr default default hslen
    intro j hj
    have hf := hfields j
    show (!(entryAt _ j).free && (entryAt _ j).sector == s) =
      (!(entryAt st j).free && (entryAt st j).sector == s)
    rw [hf.1, hf.2.1]
  refine ⟨⟨by rw [hslen, hlen], ?_, ?_⟩, hfind, ?_, hslen⟩
  · intro a b ha hb hne hfa hfb
    rw [(hfields a).1] at hfa
    rw [(hfields b).1] at hfb
    rw [(hfields a).2.1, (hfields b).2.1]
    exact hnodup a b ha hb hne hfa hfb
  · intro a ha hfa hda
    rw [(hfields a).1] at hfa
    rw [(hfields a).2.2.1] at hda
    rw [(hfields a).2.1, (hfields a).2.2.2]
    exact hclean a ha hfa hda
  · intro s
    unfold content
    rw [hfind s]
    cases hf2 : fs_cache_find s st with
    | none => rfl
    | some j => exact (hfields j).2.2.2

theorem evict_freed_spec (st st1 : CacheState) (k : Nat) (D : Nat → List Nat)
    (hkl : k < st.cache.length) (hInv : CacheInv st)
    (hfree : (entryAt st k).free = false)
    (hD1 : D (entryAt st k).sector = (entryAt st k).data)
    (hD2 : ∀ x, x ≠ (entryAt st k).sector → D x = st.device x)
    (h1 : st1 = { st with
      device := D,
      cache := st.cache.set k { (entryAt st k) with dirty := false, free := true } }) :
    CacheInv st1 ∧ st1.cache.length = CACHE_SIZE ∧ (entryAt st1 k).free = true ∧
    (∀ s, content st1 s = content st s) ∧
    (∀ s, fs_cache_find s st = none → fs_cache_find s st1 = none) := by
  subst h1
  obtain ⟨hlen, hnodup, hclean⟩ := hInv
  have hkc : k < CACHE_SIZE := by omega
  have hget_self : entryAt { st with
      device := D,
      cache := st.cache.set k { (entryAt st k) with dirty := false, free := true } } k =
      { (entryAt st k) with dirty := false, free := true } :=
    list_getD_set_self _ _ _ _ hkl
  have hget_ne : ∀ j, j ≠ k → entryAt { st with
      device := D,
      cache := st.cache.set k { (entryAt st k) with dirty := false, free := true } } j =
      entryAt st j := by
    intro j hj
    exact list_getD_set_ne _ _ _ (fun h => hj h.symm)
  have hslen : ({ st with
      device := D,
      cache := st.cache.set k { (entryAt st k) with dirty := false, free := true } } :
      CacheState).cache.length = st.cache.length := by
    simp [List.length_set]
  refine ⟨⟨by rw [hslen, hlen], ?_, ?_⟩, by rw [hslen, hlen], by rw [hget_self], ?_, ?_⟩
  · intro a b ha hb hne hfa hfb
    by_cases hak : a = k
    · subst hak
      rw [hget_self] at hfa
      simp at hfa
    · by_cases hbk : b = k
      · subst hbk
        rw [hget_self] at hfb
        simp at hfb
      · rw [hget_ne a hak] at hfa
        rw [hget_ne b hbk] at hfb
        rw [hget_ne a hak, hget_ne b hbk]
        exact hnodup a b ha hb hne hfa hfb
  · intro a ha hfa hda
    by_cases hak : a = k
    · subst hak
      rw [hget_self] at hfa
      simp at hfa
    · rw [hget_ne a hak] at hfa hda
      rw [hget_ne a hak]
      have hsec_ne : (entryAt st a).sector ≠ (entryAt st k).sector :=
        hnodup a k ha hkc hak hfa hfree
      show D (entryAt st a).sector = (entryAt st a).data
      rw [hD2 _ hsec_ne]
      exact hclean a ha hfa hda
  · intro s
    by_cases hs : s = (entryAt st k).sector
    · have hfind_st : fs_cache_find s st = some k :=
        fs_cache_find_unique ⟨hlen, hnodup, hclean⟩ hkl hfree hs.symm
      have hfind_st1 : fs_cache_find s { st with
          device := D,
          cache := st.cache.set k { (entryAt st k) with dirty := false, free := true } } =
          none := by
        rw [fs_cache_find_none_iff]
        intro j hj
        by_cases hjk : j = k
        · subst hjk
          left
          rw [hget_self]
        · rw [hget_ne j hjk]
          have hj' : j < st.cache.length := by rwa [hslen] at hj
          by_cases hjf : (entryAt st j).free = true
          · exact Or.inl hjf
          · right
            have hjf2 : (entryAt st j).free = false := by simpa using hjf
            have := hnodup j k (by omega) hkc hjk hjf2 hfree
            rwa [← hs] at this
      unfold content
      rw [hfind_st, hfind_st1]
      show D s = (entryAt st k).data
      rw [hs]
      exact hD1
    · have hfind_eq : fs_cache_find s { st with
          device := D,
          cache := st.cache.set k { (entryAt st k) with dirty := false, free := true } } =
          fs_cache_find s st := by
        apply find_first_congr default default (by rw [hslen])
        intro j hj
        by_cases hjk : j = k
        · subst hjk
          show (!(entryAt _ j).free && (entryAt _ j).sector == s) =
            (!(entryAt st j).free && (entryAt st j).sector == s)
          rw [hget_self]
          have hb : ((entryAt st j).sector == s) = false :=
            beq_eq_false_iff_ne.mpr (fun hcc => hs hcc.symm)
          show (!true && (entryAt st j).sector == s) =
            (!(entryAt st j).free && (entryAt st j).sector == s)
          rw [hb]
          simp
        · show (!(entryAt _ j).free && (entryAt _ j).sector == s) =
            (!(entryAt st j).free && (entryAt st j).sector == s)
          rw [hget_ne j hjk]
      unfold content
      rw [hfind_eq]
      cases hf2 : fs_cache_find s st with
      | none =>
        show D s = st.device s
        exact hD2 s hs
      | some j =>
        have hj := fs_cache_find_some hf2
        have hjk : j ≠ k := fun hcc => hs (by rw [← hj.2.2, hcc])
        show (entryAt _ j).data = (entryAt st j).data
        rw [hget_ne j hjk]
  · intro s hn
    rw [fs_cache_find_none_iff] at hn ⊢
    intro j hj
    by_cases hjk : j = k
    · subst hjk
      left
      rw [hget_self]
    · rw [hget_ne j hjk]
      exact hn j (by rwa [hslen] at hj)

theorem evict_break_spec (st stB : CacheState) (k : Nat)
    (hkl : k < st.cache.length) (hInv : CacheInv st)
    (hfree : (entryAt st k).free = false)
    (hbig : stB = { fs_cache_flush k st with
      cache := (fs_cache_flush k st).cache.set k
        { ((fs_cache_flush k st).cache.getD k default) with free := true } }) :
    CacheInv stB ∧ stB.cache.length = CACHE_SIZE ∧ (entryAt stB k).free = true ∧
    (∀ s, content stB s = content st s) ∧
    (∀ s, fs_cache_find s st = none → fs_cache_find s stB = none) := by
  by_cases hd : (st.cache.getD k default).dirty = true
  · have hflush : fs_cache_flush k st = { st with
        device := block_write st.device (st.cache.getD k default).sector
          (st.cache.getD k default).data,
        cache := st.cache.set k { (st.cache.getD k default) with dirty := false } } := by
      unfold fs_cache_flush
      rw [if_pos hd]
    have hcanon : stB = { st with
        device := block_write st.device (entryAt st k).sector (entryAt st k).data,
        cache := st.cache.set k { (entryAt st k) with dirty := false, free := true } } := by
      rw [hbig, hflush]
      show ({ st with
        device := block_write st.device (st.cache.getD k default).sector
          (st.cache.getD k default).data,
        cache := (st.cache.set k { (st.cache.getD k default) with dirty := false }).set k
          { ((st.cache.set k { (st.cache.getD k default) with dirty := false }).getD k default)
            with free := true } } : CacheState) = _
      rw [list_getD_set_self _ _ _ _ hkl, List.set_set]
      rfl
    exact evict_freed_spec st stB k _ hkl hInv hfree
      (by rw [block_write]; simp)
      (fun x hx => by rw [block_write]; simp [hx])
      hcanon
  · have hd2 : (st.cache.getD k default).dirty = false := by simpa using hd
    have hflush : fs_cache_flush k st = st := by
      unfold fs_cache_flush
      rw [if_neg hd]
    have hcanon : stB = { st with
        device := st.device,
        cache := st.cache.set k { (entryAt st k) with dirty := false, free := true } } := by
      rw [hbig, hflush]
      show ({ st with
        cache := st.cache.set k { (st.cache.getD k default) with free := true } } :
        CacheState) = _
      rw [show ({ (st.cache.getD k default) with free := true } : cache_entry_t) =
        { (entryAt st k) with dirty := false, free := true } from by
          unfold entryAt
          rw [← hd2]]
    refine evict_freed_spec st stB k st.device hkl hInv hfree ?_ (fun x _ => rfl) hcanon
    obtain ⟨hlen, hnodup, hclean⟩ := hInv
    exact hclean k (by omega) hfree hd2

theorem fs_cache_evict_go_spec (fuel : Nat) :
    ∀ (st : CacheState) (i : Nat) (st1 : CacheState),
      CacheInv st → fs_cache_evict_go fuel st = (some i, st1) →
      CacheInv st1 ∧
      i < CACHE_SIZE ∧
      st1.cache.length = CACHE_SIZE ∧
      (entryAt st1 i).free = true ∧
      (∀ s, content st1 s = content st s) ∧
      (∀ s, fs_cache_find s st = none → fs_cache_find s st1 = none) := by
  induction fuel with
  | zero =>
    intro st i st1 _ heq
    rw [fs_cache_evict_go] at heq
    simp at heq
  | succ n ih =>
    intro st i st1 hInv heq
    have hlen := hInv.1
    rw [fs_cache_evict_go] at heq
    dsimp only at heq
    have hkc : st.clock % CACHE_SIZE < CACHE_SIZE := Nat.mod_lt _ (by decide)
    have hkl : st.clock % CACHE_SIZE < st.cache.length := by omega
    by_cases hfree : (st.cache.getD (st.clock % CACHE_SIZE) default).free = true
    · rw [if_pos hfree] at heq
      cases heq
      exact ⟨hInv, hkc, hlen, hfree, fun s => rfl, fun s hn => hn⟩
    · rw [if_neg hfree] at heq
      have hfree2 : (entryAt st (st.clock % CACHE_SIZE)).free = false := by
        unfold entryAt
        simpa using hfree
      by_cases hacc : (st.cache.getD (st.clock % CACHE_SIZE) default).access = true
      · rw [if_pos hacc] at heq
        have H := clearAccess_spec st _ (st.clock % CACHE_SIZE)
          ((st.clock % CACHE_SIZE + 1) % CACHE_SIZE) false hkl hInv rfl
        obtain ⟨Hinv, Hfind, Hcont, Hlen⟩ := H
        obtain ⟨I1, I2, I3, I4, I5, I6⟩ := ih _ i st1 Hinv heq
        exact ⟨I1, I2, I3, I4, fun s => (I5 s).trans (Hcont s),
          fun s hn => I6 s (by rw [Hfind]; exact hn)⟩
      · rw [if_neg hacc] at heq
        cases heq
        have H := evict_break_spec st _ (st.clock % CACHE_SIZE) hkl hInv hfree2 rfl
        exact ⟨H.1, hkc, H.2.1, H.2.2.1, H.2.2.2.1, H.2.2.2.2⟩

theorem install_spec (st' : CacheState) (i : Nat) (enew : cache_entry_t)
    (hInv : CacheInv st') (hi : i < st'.cache.length)
    (hfree : (entryAt st' i).free = true)
    (hnone : fs_cache_find enew.sector st' = none)
    (hnf : enew.free = false)
    (hcl : enew.dirty = false → st'.device enew.sector = enew.data) :
    CacheInv { st' with cache := st'.cache.set i enew } ∧
    content { st' with cache := st'.cache.set i enew } enew.sector = enew.data ∧
    (∀ x, x ≠ enew.sector →
      content { st' with cache := st'.cache.set i enew } x = content st' x) ∧
    ({ st' with cache := st'.cache.set i enew } : CacheState).cache.length =
      st'.cache.length := by
  obtain ⟨hlen, hnodup, hclean⟩ := hInv
  have hget_self : entryAt { st' with cache := st'.cache.set i enew } i = enew :=
    list_getD_set_self _ _ _ _ hi
  have hget_ne : ∀ j, j ≠ i →
      entryAt { st' with cache := st'.cache.set i enew } j = entryAt st' j := by
    intro j hj
    exact list_getD_set_ne _ _ _ (fun h => hj h.symm)
  have hslen : ({ st' with cache := st'.cache.set i enew } : CacheState).cache.length =
      st'.cache.length := by simp [List.length_set]
  have hmiss := fs_cache_find_none_iff.mp hnone
  have hinv2 : CacheInv { st' with cache := st'.cache.set i enew } := by
    refine ⟨by rw [hslen, hlen], ?_, ?_⟩
    · intro a b ha hb hne hfa hfb
      by_cases hak : a = i
      · by_cases hbk : b = i
        · rw [hak, hbk] at hne; omega
        · rw [hak, hget_self]
          rw [hget_ne b hbk] at hfb ⊢
          have h1 := hmiss b (by omega)
          rcases h1 with h1 | h1
          · rw [hfb] at h1; simp at h1
          · exact fun hcc => h1 (by rw [← hcc])
      · by_cases hbk : b = i
        · rw [hbk, hget_self]
          rw [hget_ne a hak] at hfa ⊢
          have h1 := hmiss a (by omega)
          rcases h1 with h1 | h1
          · rw [hfa] at h1; simp at h1
          · exact h1
        · rw [hget_ne a hak] at hfa ⊢
          rw [hget_ne b hbk] at hfb ⊢
          exact hnodup a b ha hb hne hfa hfb
    · intro a ha hfa hda
      by_cases hak : a = i
      · rw [hak] at hfa hda ⊢
        rw [hget_self] at hfa hda ⊢
        exact hcl hda
      · rw [hget_ne a hak] at hfa hda ⊢
        exact hclean a ha hfa hda
  have hfind_self : fs_cache_find enew.sector { st' with cache := st'.cache.set i enew } =
      some i :=
    fs_cache_find_unique hinv2 (by rwa [hslen]) (by rw [hget_self]; exact hnf)
      (by rw [hget_self])
  refine ⟨hinv2, ?_, ?_, hslen⟩
  · unfold content
    rw [hfind_self]
    show (entryAt { st' with cache := st'.cache.set i enew } i).data = enew.data
    rw [hget_self]
  · intro x hx
    have hfind_eq : fs_cache_find x { st' with cache := st'.cache.set i enew } =
        fs_cache_find x st' := by
      apply find_first_congr default default hslen
      intro j hj
      by_cases hjk : j = i
      · show (!(entryAt { st' with cache := st'.cache.set i enew } j).free &&
          (entryAt { st' with cache := st'.cache.set i enew } j).sector == x) =
          (!(entryAt st' j).free && (entryAt st' j).sector == x)
        rw [hjk, hget_self, hfree]
        have hb : (enew.sector == x) = false :=
          beq_eq_false_iff_ne.mpr (fun hcc => hx hcc.symm)
        rw [hb]
        simp
      · show (!(entryAt { st' with cache := st'.cache.set i enew } j).free &&
          (entryAt { st' with cache := st'.cache.set i enew } j).sector == x) =
          (!(entryAt st' j).free && (entryAt st' j).sector == x)
        rw [hget_ne j hjk]
    unfold content
    rw [hfind_eq]
    cases hf2 : fs_cache_find x st' with
    | none => rfl
    | some j =>
      have hj := fs_cache_find_some hf2
      have hjk : j ≠ i := by
        intro hcc
        rw [hcc] at hj
        rw [hj.2.1] at hfree
        simp at hfree
      show (entryAt { st' with cache := st'.cache.set i enew } j).data =
        (entryAt st' j).data
      rw [hget_ne j hjk]

theorem fs_cache_read_spec (s : Nat) (st : CacheState) (hInv : CacheInv st) :
    (fs_cache_read s st).1 = content st s ∧
    CacheInv (fs_cache_read s st).2 ∧
    (∀ x, content (fs_cache_read s st).2 x = content st x) ∧
    (fs_cache_read s st).2.cache.length = CACHE_SIZE := by
  unfold fs_cache_read
  cases hf : fs_cache_find s st with
  | some i =>
    dsimp only
    obtain ⟨hil, hif, his⟩ := fs_cache_find_some hf
    have H := clearAccess_spec st _ i st.clock true hil hInv rfl
    obtain ⟨Hinv, Hfind, Hcont, Hlen⟩ := H
    refine ⟨?_, Hinv, Hcont, by rw [Hlen, hInv.1]⟩
    show (st.cache.getD i default).data = content st s
    unfold content
    rw [hf]
    rfl
  | none =>
    dsimp only
    have hev := fs_cache_evict_eq st hInv.1
    obtain ⟨E1, E2, E3, E4, E5, E6⟩ :=
      fs_cache_evict_go_spec (CACHE_SIZE + 1) st (fs_cache_evict st).1
        (fs_cache_evict st).2 hInv hev
    have hnone' : fs_cache_find s (fs_cache_evict st).2 = none := E6 s hf
    have hinst := install_spec (fs_cache_evict st).2 (fs_cache_evict st).1
      { sector := s, data := (fs_cache_evict st).2.device s, access := true,
        dirty := false, free := false }
      E1 (by rw [E3]; exact E2) E4 hnone' rfl (fun _ => rfl)
    have hdev : (fs_cache_evict st).2.device s = content st s := by
      rw [← E5 s]
      unfold content
      rw [hnone']
    refine ⟨hdev, hinst.1, ?_, by rw [hinst.2.2.2, E3]⟩
    intro x
    by_cases hx : x = s
    · rw [hx]
      rw [show content _ s = (fs_cache_evict st).2.device s from hinst.2.1]
      exact hdev
    · rw [show content _ x = content (fs_cache_evict st).2 x from hinst.2.2.1 x hx]
      exact E5 x

theorem fs_cache_write_spec (s : Nat) (b : List Nat) (st : CacheState) (hInv : CacheInv st) :
    CacheInv (fs_cache_write s b st) ∧
    content (fs_cache_write s b st) s = b ∧
    (∀ x, x ≠ s → content (fs_cache_write s b st) x = content st x) ∧
    (fs_cache_write s b st).cache.length = CACHE_SIZE := by
  unfold fs_cache_write
  cases hf : fs_cache_find s st with
  | some i =>
    dsimp only
    obtain ⟨hil, hif, his⟩ := fs_cache_find_some hf
    obtain ⟨hlen, hnodup, hclean⟩ := hInv
    have hget_self : entryAt { st with cache := st.cache.set i { (st.cache.getD i default) with access := true, dirty := true, data := b } } i =
        { (st.cache.getD i default) with access := true, dirty := true, data := b } :=
      list_getD_set_self _ _ _ _ hil
    have hget_ne : ∀ j, j ≠ i → entryAt { st with cache := st.cache.set i { (st.cache.getD i default) with access := true, dirty := true, data := b } } j =
        entryAt st j := by
      intro j hj
      exact list_getD_set_ne _ _ _ (fun h => hj h.symm)
    have hslen : ({ st with cache := st.cache.set i { (st.cache.getD i default) with access := true, dirty := true, data := b } } :
        CacheState).cache.length = st.cache.length := by simp [List.length_set]
    have hfields : ∀ j, (entryAt { st with cache := st.cache.set i { (st.cache.getD i default) with access := true, dirty := true, data := b } } j).free =
        (entryAt st j).free ∧
        (entryAt { st with cache := st.cache.set i { (st.cache.getD i default) with access := true, dirty := true, data := b } } j).sector =
        (entryAt st j).sector := by
      intro j
      by_cases hjk : j = i
      · rw [hjk, hget_self]
        exact ⟨rfl, rfl⟩
      · rw [hget_ne j hjk]
        exact ⟨rfl, rfl⟩
    have hfind_eq : ∀ x, fs_cache_find x { st with cache := st.cache.set i { (st.cache.getD i default) with access := true, dirty := true, data := b } } =
        fs_cache_find x st := by
      intro x
      apply find_first_congr default default hslen
      intro j hj
      show (!(entryAt _ j).free && (entryAt _ j).sector == x) =
        (!(entryAt st j).free && (entryAt st j).sector == x)
      rw [(hfields j).1, (hfields j).2]
    have hinv2 : CacheInv { st with cache := st.cache.set i { (st.cache.getD i default) with access := true, dirty := true, data := b } } := by
      refine ⟨by rw [hslen, hlen], ?_, ?_⟩
      · intro a c ha hc hne hfa hfc
        rw [(hfields a).1] at hfa
        rw [(hfields c).1] at hfc
        rw [(hfields a).2, (hfields c).2]
        exact hnodup a c ha hc hne hfa hfc
      · intro a ha hfa hda
        by_cases hak : a = i
        · rw [hak, hget_self] at hda
          simp at hda
        · rw [hget_ne a hak] at hfa hda ⊢
          exact hclean a ha hfa hda
    refine ⟨hinv2, ?_, ?_, by rw [hslen, hlen]⟩
    · unfold content
      rw [hfind_eq s, hf]
      show (entryAt _ i).data = b
      rw [hget_self]
    · intro x hx
      unfold content
      rw [hfind_eq x]
      cases hf2 : fs_cache_find x st with
      | none => rfl
      | some j =>
        have hj := fs_cache_find_some hf2
        have hjk : j ≠ i := by
          intro hcc
          rw [hcc] at hj
          rw [his] at hj
          exact hx hj.2.2.symm
        show (entryAt _ j).data = (entryAt st j).data
        rw [hget_ne j hjk]
  | none =>
    dsimp only
    have hev := fs_cache_evict_eq st hInv.1
    obtain ⟨E1, E2, E3, E4, E5, E6⟩ :=
      fs_cache_evict_go_spec (CACHE_SIZE + 1) st (fs_cache_evict st).1
        (fs_cache_evict st).2 hInv hev
    have hnone' : fs_cache_find s (fs_cache_evict st).2 = none := E6 s hf
    have hinst := install_spec (fs_cache_evict st).2 (fs_cache_evict st).1
      { sector := s, data := b, access := true, dirty := true, free := false }
      E1 (by rw [E3]; exact E2) E4 hnone' rfl (fun h => by simp at h)
    refine ⟨hinst.1, hinst.2.1, ?_, by rw [hinst.2.2.2, E3]⟩
    intro x hx
    rw [show content _ x = content (fs_cache_evict st).2 x from hinst.2.2.1 x hx]
    exact E5 x

theorem flush_spec (i : Nat) (st : CacheState) (hInv : CacheInv st)
    (hil : i < st.cache.length) (hocc : (entryAt st i).free = false) :
    CacheInv (fs_cache_flush i st) ∧
    (∀ x, content (fs_cache_flush i st) x = content st x) ∧
    (∀ j, (entryAt (fs_cache_flush i st) j).free = (entryAt st j).free ∧
      (entryAt (fs_cache_flush i st) j).sector = (entryAt st j).sector ∧
      (entryAt (fs_cache_flush i st) j).data = (entryAt st j).data) ∧
    (∀ j, (entryAt st j).dirty = false → (entryAt (fs_cache_flush i st) j).dirty = false) ∧
    (entryAt (fs_cache_flush i st) i).dirty = false ∧
    (fs_cache_flush i st).cache.length = st.cache.length := by
  obtain ⟨hlen, hnodup, hclean⟩ := hInv
  have hic : i < CACHE_SIZE := by omega
  by_cases hd : (st.cache.getD i default).dirty = true
  · have hflush : fs_cache_flush i st = { st with
        device := block_write st.device (st.cache.getD i default).sector
          (st.cache.getD i default).data,
        cache := st.cache.set i { (st.cache.getD i default) with dirty := false } } := by
      unfold fs_cache_flush
      rw [if_pos hd]
    rw [hflush]
    have hget_self : entryAt { st with
        device := block_write st.device (st.cache.getD i default).sector
          (st.cache.getD i default).data,
        cache := st.cache.set i { (st.cache.getD i default) with dirty := false } } i =
        { (st.cache.getD i default) with dirty := false } :=
      list_getD_set_self _ _ _ _ hil
    have hget_ne : ∀ j, j ≠ i → entryAt { st with
        device := block_write st.device (st.cache.getD i default).sector
          (st.cache.getD i default).data,
        cache := st.cache.set i { (st.cache.getD i default) with dirty := false } } j =
        entryAt st j := by
      intro j hj
      exact list_getD_set_ne _ _ _ (fun h => hj h.symm)
    have hslen : ({ st with
        device := block_write st.device (st.cache.getD i default).sector
          (st.cache.getD i default).data,
        cache := st.cache.set i { (st.cache.getD i default) with dirty := false } } :
        CacheState).cache.length = st.cache.length := by simp [List.length_set]
    have hfields : ∀ j, (entryAt { st with
        device := block_write st.device (st.cache.getD i default).sector
          (st.cache.getD i default).data,
        cache := st.cache.set i { (st.cache.getD i default) with dirty := false } } j).free =
        (entryAt st j).free ∧
        (entryAt { st with
        device := block_write st.device (st.cache.getD i default).sector
          (st.cache.getD i default).data,
        cache := st.cache.set i { (st.cache.getD i default) with dirty := false } } j).sector =
        (entryAt st j).sector ∧
        (entryAt { st with
        device := block_write st.device (st.cache.getD i default).sector
          (st.cache.getD i default).data,
        cache := st.cache.set i { (st.cache.getD i default) with dirty := false } } j).data =
        (entryAt st j).data := by
      intro j
      by_cases hjk : j = i
      · rw [hjk, hget_self]
        exact ⟨rfl, rfl, rfl⟩
      · rw [hget_ne j hjk]
        exact ⟨rfl, rfl, rfl⟩
    have hfind_eq : ∀ x, fs_cache_find x { st with
        device := block_write st.device (st.cache.getD i default).sector
          (st.cache.getD i default).data,
        cache := st.cache.set i { (st.cache.getD i default) with dirty := false } } =
        fs_cache_find x st := by
      intro x
      apply find_first_congr default default hslen
      intro j hj
      show (!(entryAt _ j).free && (entryAt _ j).sector == x) =
        (!(entryAt st j).free && (entryAt st j).sector == x)
      rw [(hfields j).1, (hfields j).2.1]
    refine ⟨⟨by rw [hslen, hlen], ?_, ?_⟩, ?_, hfields, ?_, ?_, hslen⟩
    · intro a c ha hc hne hfa hfc
      rw [(hfields a).1] at hfa
      rw [(hfields c).1] at hfc
      rw [(hfields a).2.1, (hfields c).2.1]
      exact hnodup a c ha hc hne hfa hfc
    · intro a ha hfa hda
      rw [(hfields a).1] at hfa
      rw [(hfields a).2.1, (hfields a).2.2]
      by_cases hak : a = i
      · rw [hak]
        show block_write st.device (st.cache.getD i default).sector
          (st.cache.getD i default).data (entryAt st i).sector = (entryAt st i).data
        unfold block_write
        rw [if_pos (show (entryAt st i).sector = (st.cache.getD i default).sector from rfl)]
        rfl
      · have hsec : (entryAt st a).sector ≠ (entryAt st i).sector :=
          hnodup a i ha hic hak hfa hocc
        have hda2 : (entryAt st a).dirty = false := by
          rwa [hget_ne a hak] at hda
        show block_write st.device (st.cache.getD i default).sector
          (st.cache.getD i default).data (entryAt st a).sector = (entryAt st a).data
        unfold block_write
        rw [if_neg (show ¬(entryAt st a).sector = (st.cache.getD i default).sector from hsec)]
        exact hclean a ha hfa hda2
    · intro x
      unfold content
      rw [hfind_eq x]
      cases hf2 : fs_cache_find x st with
      | none =>
        show block_write st.device (st.cache.getD i default).sector
          (st.cache.getD i default).data x = st.device x
        unfold block_write
        have hx : x ≠ (st.cache.getD i default).sector := by
          intro hcc
          rw [fs_cache_find_none_iff] at hf2
          rcases hf2 i hil with h1 | h1
          · rw [hocc] at h1; simp at h1
          · exact h1 (show (entryAt st i).sector = x from hcc.symm)
        rw [if_neg hx]
      | some j =>
        exact (hfields j).2.2
    · intro j hdj
      by_cases hjk : j = i
      · rw [hjk, hget_self]
      · rw [hget_ne j hjk]
        exact hdj
    · rw [hget_self]
  · have hflush : fs_cache_flush i st = st := by
      unfold fs_cache_flush
      rw [if_neg hd]
    rw [hflush]
    refine ⟨⟨hlen, hnodup, hclean⟩, fun x => rfl, fun j => ⟨rfl, rfl, rfl⟩,
      fun j h => h, ?_, rfl⟩
    show (st.cache.getD i default).dirty = false
    revert hd
    cases (st.cache.getD i default).dirty <;> simp

theorem destroy_fold_spec (is : List Nat) : ∀ (st : CacheState), CacheInv st →
    CacheInv (is.foldl
      (fun st i => if (st.cache.getD i default).free then st else fs_cache_flush i st) st) ∧
    (∀ x, content (is.foldl
      (fun st i => if (st.cache.getD i default).free then st else fs_cache_flush i st) st) x =
      content st x) ∧
    (∀ j, (entryAt (is.foldl
      (fun st i => if (st.cache.getD i default).free then st else fs_cache_flush i st) st) j).free =
      (entryAt st j).free) ∧
    (∀ j, (entryAt st j).dirty = false → (entryAt (is.foldl
      (fun st i => if (st.cache.getD i default).free then st else fs_cache_flush i st) st) j).dirty
      = false) ∧
    (∀ i ∈ is, (entryAt (is.foldl
      (fun st i => if (st.cache.getD i default).free then st else fs_cache_flush i st) st) i).free
      = true ∨
      (entryAt (is.foldl
      (fun st i => if (st.cache.getD i default).free then st else fs_cache_flush i st) st) i).dirty
      = false) := by
  induction is with
  | nil =>
    intro st hInv
    exact ⟨hInv, fun x => rfl, fun j => rfl, fun j h => h, fun i hi => by simp at hi⟩
  | cons i rest ih =>
    intro st hInv
    rw [List.foldl_cons]
    by_cases hfree : (st.cache.getD i default).free = true
    · rw [if_pos hfree]
      obtain ⟨I1, I2, I3, I4, I5⟩ := ih st hInv
      refine ⟨I1, I2, I3, I4, ?_⟩
      intro a ha
      rcases List.mem_cons.mp ha with ha1 | ha1
      · rw [ha1]
        left
        rw [I3 i]
        exact hfree
      · exact I5 a ha1
    · rw [if_neg hfree]
      have hocc : (entryAt st i).free = false := by
        show (st.cache.getD i default).free = false
        revert hfree
        cases (st.cache.getD i default).free <;> simp
      by_cases hil : i < st.cache.length
      · obtain ⟨F1, F2, F3, F4, F5, F6⟩ := flush_spec i st hInv hil hocc
        obtain ⟨I1, I2, I3, I4, I5⟩ := ih (fs_cache_flush i st) F1
        refine ⟨I1, fun x => (I2 x).trans (F2 x), fun j => (I3 j).trans (F3 j).1, ?_, ?_⟩
        · intro j hdj
          exact I4 j (F4 j hdj)
        · intro a ha
          rcases List.mem_cons.mp ha with ha1 | ha1
          · rw [ha1]
            right
            exact I4 i F5
          · exact I5 a ha1
      · push_neg at hil
        have hid : fs_cache_flush i st = st := by
          unfold fs_cache_flush
          rw [if_neg (by rw [list_getD_eq_default _ _ hil]; decide)]
        rw [hid]
        obtain ⟨I1, I2, I3, I4, I5⟩ := ih st hInv
        refine ⟨I1, I2, I3, I4, ?_⟩
        intro a ha
        rcases List.mem_cons.mp ha with ha1 | ha1
        · rw [ha1]
          right
          apply I4
          show (st.cache.getD i default).dirty = false
          rw [list_getD_eq_default _ _ hil]
          decide
        · exact I5 a ha1

theorem destroy_fold_device (is : List Nat) (st : CacheState) (hInv : CacheInv st)
    (hall : ∀ j, j < CACHE_SIZE → j ∈ is) :
    ∀ x, (is.foldl
      (fun st i => if (st.cache.getD i default).free then st else fs_cache_flush i st) st).device
      x = content st x := by
  obtain ⟨F1, F2, F3, F4, F5⟩ := destroy_fold_spec is st hInv
  intro x
  rw [← F2 x]
  unfold content
  cases hf : fs_cache_find x (is.foldl
      (fun st i => if (st.cache.getD i default).free then st else fs_cache_flush i st) st) with
  | none => rfl
  | some j =>
    obtain ⟨hjl, hjf, hjs⟩ := fs_cache_find_some hf
    have hj64 : j < CACHE_SIZE := by
      have := F1.1
      omega
    have hfd : (entryAt (is.foldl
        (fun st i => if (st.cache.getD i default).free then st else fs_cache_flush i st) st)
        j).dirty = false := by
      rcases F5 j (hall j hj64) with h | h
      · rw [hjf] at h
        simp at h
      · exact h
    have hcl := F1.2.2 j hj64 hjf hfd
    rw [hjs] at hcl
    exact hcl

theorem fs_cache_destroy_spec (st : CacheState) (hInv : CacheInv st) :
    ∀ x, (fs_cache_destroy st).device x = content st x := by
  have h := destroy_fold_device (List.range CACHE_SIZE) st hInv
    (fun j hj => List.mem_range.mpr hj)
  rw [show fs_cache_destroy st = (List.range CACHE_SIZE).foldl
      (fun st i => if (st.cache.getD i default).free then st else fs_cache_flush i st) st
    from rfl]
  exact h

theorem lastWrite_cons_rd (t : Nat) (rest : List CacheOp) (s : Nat) :
    lastWrite (CacheOp.rd t :: rest) s = lastWrite rest s := rfl

theorem lastWrite_cons_wr (t : Nat) (b : List Nat) (rest : List CacheOp) (s : Nat) :
    lastWrite (CacheOp.wr t b :: rest) s =
      match lastWrite rest s with
      | some c => some c
      | none => if t = s then some b else none := rfl

theorem lastWrite_eq_none_of_no_write (ops : List CacheOp) (s : Nat)
    (h : ∀ b, CacheOp.wr s b ∉ ops) : lastWrite ops s = none := by
  induction ops with
  | nil => rfl
  | cons op rest ih =>
    have hrest : lastWrite rest s = none := by
      refine ih (fun b hb => ?_)
      exact h b (List.mem_cons_of_mem _ hb)
    cases op with
    | rd t => rw [lastWrite_cons_rd, hrest]
    | wr t b =>
      rw [lastWrite_cons_wr, hrest]
      by_cases ht : t = s
      · exfalso
        refine h b ?_
        rw [ht]
        exact List.mem_cons_self _ _
      · simp [ht]

theorem content_execOps (ops : List CacheOp) : ∀ (st : CacheState), CacheInv st →
    CacheInv (execOps ops st) ∧
    (∀ s, content (execOps ops st) s = (lastWrite ops s).getD (content st s)) := by
  induction ops with
  | nil =>
    intro st hInv
    exact ⟨hInv, fun s => rfl⟩
  | cons op rest ih =>
    intro st hInv
    cases op with
    | rd t =>
      obtain ⟨_, h2, h3, _⟩ := fs_cache_read_spec t st hInv
      obtain ⟨I1, I2⟩ := ih (execOp st (CacheOp.rd t)) h2
      refine ⟨I1, fun s => ?_⟩
      show content (execOps rest (execOp st (CacheOp.rd t))) s =
        (lastWrite (CacheOp.rd t :: rest) s).getD (content st s)
      rw [I2 s, lastWrite_cons_rd]
      cases hlw : lastWrite rest s with
      | some c => rfl
      | none =>
        show content (execOp st (CacheOp.rd t)) s = content st s
        exact h3 s
    | wr t b =>
      obtain ⟨W1, W2, W3, _⟩ := fs_cache_write_spec t b st hInv
      obtain ⟨I1, I2⟩ := ih (execOp st (CacheOp.wr t b)) W1
      refine ⟨I1, fun s => ?_⟩
      show content (execOps rest (execOp st (CacheOp.wr t b))) s =
        (lastWrite (CacheOp.wr t b :: rest) s).getD (content st s)
      rw [I2 s, lastWrite_cons_wr]
      cases hlw : lastWrite rest s with
      | some c => rfl
      | none =>
        by_cases ht : t = s
        · subst ht
          show content (execOp st (CacheOp.wr t b)) t =
            (if t = t then some b else none).getD (content st t)
          rw [if_pos rfl]
          exact W2
        · show content (execOp st (CacheOp.wr t b)) s =
            (if t = s then some b else none).getD (content st s)
          rw [if_neg ht]
          exact W3 s (fun hc => ht hc.symm)

theorem set_access_fields (st : CacheState) (k c : Nat) (av : Bool) :
    ∀ j, (entryAt { st with
        cache := st.cache.set k { (st.cache.getD k default) with access := av },
        clock := c } j).free = (entryAt st j).free ∧
      (entryAt { st with
        cache := st.cache.set k { (st.cache.getD k default) with access := av },
        clock := c } j).sector = (entryAt st j).sector ∧
      (entryAt { st with
        cache := st.cache.set k { (st.cache.getD k default) with access := av },
        clock := c } j).dirty = (entryAt st j).dirty ∧
      (entryAt { st with
        cache := st.cache.set k { (st.cache.getD k default) with access := av },
        clock := c } j).data = (entryAt st j).data := by
  intro j
  by_cases hkl : k < st.cache.length
  · by_cases hjk : j = k
    · rw [show entryAt { st with
          cache := st.cache.set k { (st.cache.getD k default) with access := av },
          clock := c } j = (st.cache.set k
            { (st.cache.getD k default) with access := av }).getD j default from rfl]
      rw [hjk, list_getD_set_self _ _ _ _ hkl]
      exact ⟨rfl, rfl, rfl, rfl⟩
    · rw [show entryAt { st with
          cache := st.cache.set k { (st.cache.getD k default) with access := av },
          clock := c } j = (st.cache.set k
            { (st.cache.getD k default) with access := av }).getD j default from rfl]
      rw [list_getD_set_ne _ _ _ (fun h => hjk h.symm)]
      exact ⟨rfl, rfl, rfl, rfl⟩
  · push_neg at hkl
    rw [show entryAt { st with
        cache := st.cache.set k { (st.cache.getD k default) with access := av },
        clock := c } j = (st.cache.set k
          { (st.cache.getD k default) with access := av }).getD j default from rfl]
    rw [List.set_eq_of_length_le hkl]
    exact ⟨rfl, rfl, rfl, rfl⟩

theorem flush_cache_length (i : Nat) (st : CacheState) :
    (fs_cache_flush i st).cache.length = st.cache.length := by
  unfold fs_cache_flush
  dsimp only
  split
  · simp [List.length_set]
  · rfl

theorem freed_entry_access (st : CacheState) (k : Nat) :
    (entryAt { fs_cache_flush k st with
      cache := (fs_cache_flush k st).cache.set k
        { ((fs_cache_flush k st).cache.getD k default) with free := true } } k).access = false ∨
    (entryAt { fs_cache_flush k st with
      cache := (fs_cache_flush k st).cache.set k
        { ((fs_cache_flush k st).cache.getD k default) with free := true } } k).access =
      (entryAt st k).access := by
  by_cases hkl : k < st.cache.length
  · have hkl2 : k < (fs_cache_flush k st).cache.length := by
      rw [flush_cache_length]
      exact hkl
    have hself : entryAt { fs_cache_flush k st with
        cache := (fs_cache_flush k st).cache.set k
          { ((fs_cache_flush k st).cache.getD k default) with free := true } } k =
        { ((fs_cache_flush k st).cache.getD k default) with free := true } :=
      list_getD_set_self _ _ _ _ hkl2
    rw [hself]
    right
    show (entryAt (fs_cache_flush k st) k).access = (entryAt st k).access
    unfold fs_cache_flush
    dsimp only
    split
    · show ((st.cache.set k { (st.cache.getD k default) with dirty := false }).getD k
        default).access = (entryAt st k).access
      rw [list_getD_set_self _ _ _ _ hkl]
      rfl
    · rfl
  · push_neg at hkl
    left
    have hkl2 : (fs_cache_flush k st).cache.length ≤ k := by
      rw [flush_cache_length]
      exact hkl
    show (((fs_cache_flush k st).cache.set k
      { ((fs_cache_flush k st).cache.getD k default) with free := true }).getD k
      default).access = false
    rw [List.set_eq_of_length_le hkl2, list_getD_eq_default _ _ hkl2]
    rfl

/-- C3: after `fs_cache_write S B`, any subsequent `fs_cache_read S` — across an
arbitrary further trace of cache operations that contains no other write to S and
during which S's cache line is never evicted and reclaimed for another sector
(it stays findable) — returns exactly B. -/
theorem c3_read_after_write (S : Nat) (B : List Nat) (st : CacheState)
    (ops : List CacheOp) (hInv : CacheInv st)
    (hnw : ∀ b, CacheOp.wr S b ∉ ops)
    (hlive : ∀ n, fs_cache_find S (execOps (ops.take n) (fs_cache_write S B st)) ≠ none) :
    (fs_cache_read S (execOps ops (fs_cache_write S B st))).1 = B := by
  obtain ⟨W1, W2, _, _⟩ := fs_cache_write_spec S B st hInv
  obtain ⟨I1, I2⟩ := content_execOps ops (fs_cache_write S B st) W1
  have hr := (fs_cache_read_spec S (execOps ops (fs_cache_write S B st)) I1).1
  rw [hr, I2 S, lastWrite_eq_none_of_no_write ops S hnw]
  exact W2

theorem c3_witness :
    CacheInv st0 ∧ (∀ b, CacheOp.wr 3 b ∉ [CacheOp.rd 3]) ∧
    (fs_cache_read 3 (execOps [CacheOp.rd 3] (fs_cache_write 3 (List.replicate 512 7) st0))).1 =
      List.replicate 512 7 := by
  have hinv : CacheInv st0 := cacheInv_init device0
  have hnw : ∀ b, CacheOp.wr 3 b ∉ [CacheOp.rd 3] := by
    intro b hb
    simp at hb
  refine ⟨hinv, hnw, c3_read_after_write 3 (List.replicate 512 7) st0 [CacheOp.rd 3] hinv hnw ?_⟩
  intro n
  cases n with
  | zero => decide
  | succ m =>
    rw [show ([CacheOp.rd 3] : List CacheOp).take (m + 1) = [CacheOp.rd 3] from by
      rw [List.take_succ_cons]
      simp]
    decide

/-- C4: (i) whenever the clock loop selects an occupied dirty line as its victim,
the state it returns has the device holding that line's data at the line's sector
(write-back before the line is reused); (ii) after any trace of cache operations
from a pristine cache over any device, `fs_cache_destroy` (cache teardown, full
flush) leaves the device holding, at every sector written through the cache, the
last value written to that sector. -/
theorem c4_write_back :
    (∀ (fuel : Nat) (st : CacheState) (i : Nat) (st1 : CacheState),
      fs_cache_evict_go fuel st = (some i, st1) →
      (entryAt st i).free = false → (entryAt st i).dirty = true →
      st1.device (entryAt st i).sector = (entryAt st i).data)
    ∧ (∀ (dev : Nat → List Nat) (ops : List CacheOp) (s : Nat) (b : List Nat),
      lastWrite ops s = some b →
      (fs_cache_destroy (execOps ops (fs_cache_init dev))).device s = b) := by
  constructor
  · intro fuel
    induction fuel with
    | zero =>
      intro st i st1 heq
      rw [fs_cache_evict_go] at heq
      simp at heq
    | succ n ih =>
      intro st i st1 heq hocc hdirty
      rw [fs_cache_evict_go] at heq
      dsimp only at heq
      by_cases hfree : (st.cache.getD (st.clock % CACHE_SIZE) default).free = true
      · rw [if_pos hfree] at heq
        cases heq
        rw [show (entryAt st (st.clock % CACHE_SIZE)).free =
          (st.cache.getD (st.clock % CACHE_SIZE) default).free from rfl, hfree] at hocc
        simp at hocc
      · rw [if_neg hfree] at heq
        by_cases hacc : (st.cache.getD (st.clock % CACHE_SIZE) default).access = true
        · rw [if_pos hacc] at heq
          have hf := set_access_fields st (st.clock % CACHE_SIZE)
            ((st.clock % CACHE_SIZE + 1) % CACHE_SIZE) false
          have h2 := ih _ i st1 heq (by rw [(hf i).1]; exact hocc)
            (by rw [(hf i).2.2.1]; exact hdirty)
          rw [(hf i).2.1, (hf i).2.2.2] at h2
          exact h2
        · rw [if_neg hacc] at heq
          cases heq
          by_cases hkl : st.clock % CACHE_SIZE < st.cache.length
          · have hd' : (st.cache.getD (st.clock % CACHE_SIZE) default).dirty = true := hdirty
            have hfl : fs_cache_flush (st.clock % CACHE_SIZE) st = { st with
                device := block_write st.device
                  (st.cache.getD (st.clock % CACHE_SIZE) default).sector
                  (st.cache.getD (st.clock % CACHE_SIZE) default).data,
                cache := st.cache.set (st.clock % CACHE_SIZE)
                  { (st.cache.getD (st.clock % CACHE_SIZE) default) with dirty := false } } := by
              unfold fs_cache_flush
              dsimp only
              rw [if_pos hd']
            rw [hfl]
            show block_write st.device
              (st.cache.getD (st.clock % CACHE_SIZE) default).sector
              (st.cache.getD (st.clock % CACHE_SIZE) default).data
              (entryAt st (st.clock % CACHE_SIZE)).sector =
              (entryAt st (st.clock % CACHE_SIZE)).data
            unfold block_write
            rw [if_pos (show (entryAt st (st.clock % CACHE_SIZE)).sector =
              (st.cache.getD (st.clock % CACHE_SIZE) default).sector from rfl)]
            rfl
          · push_neg at hkl
            have : (entryAt st (st.clock % CACHE_SIZE)).dirty = false := by
              show (st.cache.getD (st.clock % CACHE_SIZE) default).dirty = false
              rw [list_getD_eq_default _ _ hkl]
              rfl
            rw [this] at hdirty
            simp at hdirty
  · intro dev ops s b hlw
    have h0 := cacheInv_init dev
    obtain ⟨I1, I2⟩ := content_execOps ops (fs_cache_init dev) h0
    rw [fs_cache_destroy_spec _ I1 s, I2 s, hlw]
    rfl

theorem c4_witness :
    (fs_cache_evict_go (CACHE_SIZE + 1) stDirty).2.device 7 = [1, 2, 3] ∧
    (fs_cache_destroy (execOps [CacheOp.wr 5 (List.replicate 512 9)]
      (fs_cache_init device0))).device 5 = List.replicate 512 9 := by
  constructor
  · have h1 : fs_cache_evict_go (CACHE_SIZE + 1) stDirty =
        (some 0, (fs_cache_evict_go (CACHE_SIZE + 1) stDirty).2) := by
      refine Prod.ext ?_ rfl
      decide
    have h2 := c4_write_back.1 (CACHE_SIZE + 1) stDirty 0
      (fs_cache_evict_go (CACHE_SIZE + 1) stDirty).2 h1 (by decide) (by decide)
    exact h2
  · exact c4_write_back.2 device0 [CacheOp.wr 5 (List.replicate 512 9)] 5
      (List.replicate 512 9) (by decide)

/-- C8: (i) when the clock hand reaches an occupied line whose accessed flag is
set, the eviction loop does not choose it at that encounter: it clears the flag
and advances the hand, continuing the sweep on the updated state; (ii) any line
the loop does return as victim is free or has its accessed flag clear at
selection time, so a just-touched line survives at least one full sweep. -/
theorem c8_second_chance :
    (∀ (fuel : Nat) (st : CacheState),
      (entryAt st (st.clock % CACHE_SIZE)).free = false →
      (entryAt st (st.clock % CACHE_SIZE)).access = true →
      fs_cache_evict_go (fuel + 1) st =
        fs_cache_evict_go fuel { st with
          cache := st.cache.set (st.clock % CACHE_SIZE)
            { (st.cache.getD (st.clock % CACHE_SIZE) default) with access := false },
          clock := (st.clock % CACHE_SIZE + 1) % CACHE_SIZE })
    ∧ (∀ (fuel : Nat) (st : CacheState) (i : Nat) (st1 : CacheState),
      fs_cache_evict_go fuel st = (some i, st1) →
      (entryAt st i).free = true ∨ (entryAt st1 i).access = false) := by
  constructor
  · intro fuel st hocc hacc
    rw [fs_cache_evict_go]
    dsimp only
    rw [if_neg (show ¬(st.cache.getD (st.clock % CACHE_SIZE) default).free = true from by
      rw [show (st.cache.getD (st.clock % CACHE_SIZE) default).free =
        (entryAt st (st.clock % CACHE_SIZE)).free from rfl, hocc]
      simp)]
    rw [if_pos (show (st.cache.getD (st.clock % CACHE_SIZE) default).access = true from hacc)]
  · intro fuel
    induction fuel with
    | zero =>
      intro st i st1 heq
      rw [fs_cache_evict_go] at heq
      simp at heq
    | succ n ih =>
      intro st i st1 heq
      rw [fs_cache_evict_go] at heq
      dsimp only at heq
      by_cases hfree : (st.cache.getD (st.clock % CACHE_SIZE) default).free = true
      · rw [if_pos hfree] at heq
        cases heq
        exact Or.inl hfree
      · rw [if_neg hfree] at heq
        by_cases hacc : (st.cache.getD (st.clock % CACHE_SIZE) default).access = true
        · rw [if_pos hacc] at heq
          have hf := set_access_fields st (st.clock % CACHE_SIZE)
            ((st.clock % CACHE_SIZE + 1) % CACHE_SIZE) false
          rcases ih _ i st1 heq with h | h
          · left
            rw [(hf i).1] at h
            exact h
          · exact Or.inr h
        · rw [if_neg hacc] at heq
          cases heq
          right
          rcases freed_entry_access st (st.clock % CACHE_SIZE) with h | h
          · exact h
          · rw [h]
            show (st.cache.getD (st.clock % CACHE_SIZE) default).access = false
            revert hacc
            cases (st.cache.getD (st.clock % CACHE_SIZE) default).access <;> simp

theorem c8_witness :
    ((entryAt stAcc (stAcc.clock % CACHE_SIZE)).free = false ∧
     (entryAt stAcc (stAcc.clock % CACHE_SIZE)).access = true ∧
     fs_cache_evict_go (CACHE_SIZE + 1) stAcc =
       fs_cache_evict_go CACHE_SIZE { stAcc with
         cache := stAcc.cache.set (stAcc.clock % CACHE_SIZE)
           { (stAcc.cache.getD (stAcc.clock % CACHE_SIZE) default) with access := false },
         clock := (stAcc.clock % CACHE_SIZE + 1) % CACHE_SIZE }) ∧
    ((entryAt stAcc 1).free = true ∨
     (entryAt (fs_cache_evict_go (CACHE_SIZE + 1) stAcc).2 1).access = false) := by
  constructor
  · exact ⟨by decide, by decide, c8_second_chance.1 CACHE_SIZE stAcc (by decide) (by decide)⟩
  · refine c8_second_chance.2 (CACHE_SIZE + 1) stAcc 1
      (fs_cache_evict_go (CACHE_SIZE + 1) stAcc).2 ?_
    refine Prod.ext ?_ rfl
    decide

theorem reg_find_some {s : Nat} {reg : List inode} {i : Nat}
    (h : find_first (fun ino => ino.sector == s) reg = some i) :
    i < reg.length ∧ (reg.getD i default).sector = s :=
  ⟨find_first_lt_length h, beq_iff_eq.mp (find_first_getD default h)⟩

theorem reg_find_none {s : Nat} {reg : List inode}
    (h : find_first (fun ino => ino.sector == s) reg = none) :
    ∀ ino ∈ reg, ino.sector ≠ s := by
  intro ino hm
  obtain ⟨j, hj, hje⟩ := List.mem_iff_getElem.mp hm
  have h2 := (find_first_eq_none_iff default).mp h j hj
  rw [List.getD_eq_getElem _ _ hj] at h2
  rw [← hje]
  exact beq_eq_false_iff_ne.mp h2

theorem RegInv_congr {reg : List inode} {b b' : Nat → Int} (h : ∀ x, b x = b' x) :
    RegInv reg b → RegInv reg b' := by
  intro ⟨h1, h2, h3⟩
  refine ⟨h1, ?_, ?_⟩
  · intro ino hm
    rw [← h ino.sector]
    exact h2 ino hm
  · intro x hx
    rw [← h x]
    exact h3 x hx

theorem regInv_open (s : Nat) (reg : List inode) (st : CacheState) (b : Nat → Int)
    (h : RegInv reg b) :
    RegInv (inode_open s reg st).2.1 (fun x => b x + if x = s then 1 else 0) := by
  obtain ⟨hnd, hcnt, habs⟩ := h
  unfold inode_open
  cases hf : find_first (fun ino => ino.sector == s) reg with
  | some i =>
    dsimp only
    obtain ⟨hil, his⟩ := reg_find_some hf
    refine ⟨?_, ?_, ?_⟩
    · rw [List.map_set]
      have hv : (inode_reopen (reg.getD i default)).sector =
          (reg.map (fun ino => ino.sector)).getD i 0 := by
        show (reg.getD i default).sector = (reg.map (fun ino => ino.sector)).getD i 0
        rw [List.getD_eq_getElem reg default hil,
          List.getD_eq_getElem (reg.map (fun ino => ino.sector)) 0 (by simpa using hil),
          List.getElem_map]
      rw [hv, list_set_getD_self _ _ _ (by simpa using hil)]
      exact hnd
    · intro ino hm
      obtain ⟨j, hj, hje⟩ := List.mem_iff_getElem.mp hm
      rw [List.getElem_set] at hje
      by_cases hij : i = j
      · rw [if_pos hij] at hje
        rw [← hje]
        have hmem : reg.getD i default ∈ reg := by
          rw [List.getD_eq_getElem _ _ hil]
          exact List.getElem_mem hil
        obtain ⟨hc1, hc2⟩ := hcnt (reg.getD i default) hmem
        constructor
        · rw [show (inode_reopen (reg.getD i default)).sector = s from his]
          show (inode_reopen (reg.getD i default)).open_cnt = b s + if s = s then 1 else 0
          rw [if_pos (Eq.refl s)]
          show (reg.getD i default).open_cnt + 1 = b s + 1
          rw [hc1, his]
        · show 1 ≤ (reg.getD i default).open_cnt + 1
          omega
      · rw [if_neg hij] at hje
        have hj2 : j < reg.length := by
          have := hj
          rw [List.length_set] at this
          exact this
        have hmem : reg[j] ∈ reg := List.getElem_mem hj2
        have hsec_ne : reg[j].sector ≠ s := by
          intro hcc
          have hjm : j < (reg.map (fun ino => ino.sector)).length := by simpa using hj2
          have him : i < (reg.map (fun ino => ino.sector)).length := by simpa using hil
          have hmapeq : (reg.map (fun ino => ino.sector))[j] =
              (reg.map (fun ino => ino.sector))[i] := by
            rw [List.getElem_map, List.getElem_map, hcc, ← his,
              List.getD_eq_getElem _ _ hil]
          have := (List.Nodup.getElem_inj_iff hnd).mp hmapeq
          exact hij this.symm
        obtain ⟨h1, h2⟩ := hcnt reg[j] hmem
        rw [← hje]
        refine ⟨?_, h2⟩
        show reg[j].open_cnt = b reg[j].sector + if reg[j].sector = s then 1 else 0
        rw [h1, if_neg hsec_ne, add_zero]
    · intro x hx
      have he'mem : inode_reopen (reg.getD i default) ∈
          reg.set i (inode_reopen (reg.getD i default)) := List.mem_set reg i hil _
      have hxs : x ≠ s := by
        intro hcc
        exact hx _ he'mem (by
          rw [show (inode_reopen (reg.getD i default)).sector = s from his, hcc])
      have hold : ∀ ino ∈ reg, ino.sector ≠ x := by
        intro ino hm hcc
        obtain ⟨j, hj, hje⟩ := List.mem_iff_getElem.mp hm
        by_cases hij : j = i
        · apply hxs
          rw [← hcc, ← hje]
          have hji : reg[j] = reg.getD i default := by
            rw [List.getD_eq_getElem reg default hil]
            simp only [hij]
          rw [hji]
          exact his
        · have hj2 : j < (reg.set i (inode_reopen (reg.getD i default))).length := by
            rw [List.length_set]
            exact hj
          have hset : (reg.set i (inode_reopen (reg.getD i default)))[j] = reg[j] := by
            rw [List.getElem_set, if_neg (fun hcc2 => hij hcc2.symm)]
          have hmem' : ino ∈ reg.set i (inode_reopen (reg.getD i default)) := by
            rw [← hje, ← hset]
            exact List.getElem_mem hj2
          exact hx ino hmem' hcc
      show b x + (if x = s then 1 else 0) = 0
      rw [if_neg hxs, habs x hold]
      simp
  | none =>
    dsimp only
    have hnone := reg_find_none hf
    show RegInv ({ sector := s, open_cnt := 1, removed := false, deny_write_cnt := 0, data := decNode (fs_cache_read s st).1 } :: reg) _
    refine ⟨?_, ?_, ?_⟩
    · rw [List.map_cons, List.nodup_cons]
      refine ⟨?_, hnd⟩
      intro hmem
      obtain ⟨ino, hm, hsec⟩ := List.mem_map.mp hmem
      exact hnone ino hm hsec
    · intro ino hm
      rcases List.mem_cons.mp hm with h1 | h1
      · rw [h1]
        constructor
        · show (1 : Int) = b s + if s = s then 1 else 0
          rw [if_pos (Eq.refl s), habs s (fun ino2 hm2 => hnone ino2 hm2)]
          simp
        · show (1 : Int) ≤ 1
          omega
      · obtain ⟨h1', h2'⟩ := hcnt ino h1
        refine ⟨?_, h2'⟩
        show ino.open_cnt = b ino.sector + if ino.sector = s then 1 else 0
        rw [h1', if_neg (hnone ino h1), add_zero]
    · intro x hx
      have hxs : x ≠ s := by
        intro hcc
        refine hx ({ sector := s, open_cnt := 1, removed := false, deny_write_cnt := 0, data := decNode (fs_cache_read s st).1 } : inode) (List.mem_cons_self _ _) ?_
        rw [hcc]
      show b x + (if x = s then 1 else 0) = 0
      rw [if_neg hxs, habs x (fun ino hm => hx ino (List.mem_cons_of_mem _ hm))]
      simp

theorem regInv_close (s : Nat) (reg : List inode) (st : CacheState) (fm : FreeMap)
    (b : Nat → Int) (h : RegInv reg b) (hs : ∃ ino ∈ reg, ino.sector = s) :
    RegInv (inode_close s reg st fm).1 (fun x => b x - if x = s then 1 else 0) := by
  obtain ⟨hnd, hcnt, habs⟩ := h
  unfold inode_close
  cases hf : find_first (fun ino => ino.sector == s) reg with
  | none =>
    exfalso
    obtain ⟨ino, hm, hsec⟩ := hs
    exact reg_find_none hf ino hm hsec
  | some i =>
    dsimp only
    obtain ⟨hil, his⟩ := reg_find_some hf
    have hmem : reg.getD i default ∈ reg := by
      rw [List.getD_eq_getElem reg default hil]
      exact List.getElem_mem hil
    obtain ⟨hc1, hc2⟩ := hcnt _ hmem
    have hfullnd : reg.Nodup := List.Nodup.of_map _ hnd
    have hsector_unique : ∀ j, (hj : j < reg.length) → reg[j].sector = s → j = i := by
      intro j hj hsec
      have hjm : j < (reg.map (fun ino => ino.sector)).length := by simpa using hj
      have him : i < (reg.map (fun ino => ino.sector)).length := by simpa using hil
      have hmapeq : (reg.map (fun ino => ino.sector))[j] =
          (reg.map (fun ino => ino.sector))[i] := by
        rw [List.getElem_map, List.getElem_map, hsec, ← his,
          List.getD_eq_getElem reg default hil]
      exact (List.Nodup.getElem_inj_iff hnd).mp hmapeq
    by_cases hz : (reg.getD i default).open_cnt - 1 = 0
    · have hbs : b s = 1 := by
        rw [← his, ← hc1]
        omega
      have herase : RegInv (reg.eraseIdx i) (fun x => b x - if x = s then 1 else 0) := by
        refine ⟨?_, ?_, ?_⟩
        · exact List.Nodup.sublist (List.Sublist.map _ (List.eraseIdx_sublist reg i)) hnd
        · intro ino hm2
          have hm3 : ino ∈ reg := List.mem_of_mem_eraseIdx hm2
          have hsec_ne : ino.sector ≠ s := by
            intro hcc
            obtain ⟨j, hj, hje⟩ := List.mem_iff_getElem.mp hm3
            have hji : j = i := hsector_unique j hj (by rw [hje]; exact hcc)
            have : reg[i] ∉ reg.eraseIdx i := list_getElem_not_mem_eraseIdx reg i hil hfullnd
            apply this
            have hri : reg[i] = ino := by
              rw [← hje]
              simp only [hji]
            rw [hri]
            exact hm2
          obtain ⟨h1, h2⟩ := hcnt ino hm3
          refine ⟨?_, h2⟩
          show ino.open_cnt = b ino.sector - if ino.sector = s then 1 else 0
          rw [h1, if_neg hsec_ne, sub_zero]
        · intro x hx
          by_cases hxs : x = s
          · show b x - (if x = s then 1 else 0) = 0
            rw [if_pos hxs, hxs, hbs]
            omega
          · show b x - (if x = s then 1 else 0) = 0
            rw [if_neg hxs, sub_zero]
            refine habs x ?_
            intro ino hm2 hcc
            obtain ⟨j, hj, hje⟩ := List.mem_iff_getElem.mp hm2
            by_cases hji : j = i
            · apply hxs
              rw [← hcc, ← hje]
              have hri : reg[j] = reg.getD i default := by
                rw [List.getD_eq_getElem reg default hil]
                simp only [hji]
              rw [hri, his]
            · have hj2 : reg[j] ∈ reg.eraseIdx i := list_getElem_eraseIdx_of_ne reg i j hj hji
              rw [hje] at hj2
              exact hx ino hj2 hcc
      rw [if_pos hz]
      by_cases hrm : (reg.getD i default).removed = true
      · rw [if_pos hrm]
        show RegInv (reg.eraseIdx i) _
        exact herase
      · rw [if_neg hrm]
        exact herase
    · rw [if_neg hz]
      refine ⟨?_, ?_, ?_⟩
      · rw [List.map_set]
        have hv : ({ (reg.getD i default) with
            open_cnt := (reg.getD i default).open_cnt - 1 } : inode).sector =
            (reg.map (fun ino => ino.sector)).getD i 0 := by
          show (reg.getD i default).sector = (reg.map (fun ino => ino.sector)).getD i 0
          rw [List.getD_eq_getElem reg default hil,
            List.getD_eq_getElem (reg.map (fun ino => ino.sector)) 0 (by simpa using hil),
            List.getElem_map]
        rw [hv, list_set_getD_self _ _ _ (by simpa using hil)]
        exact hnd
      · intro ino hm2
        obtain ⟨j, hj, hje⟩ := List.mem_iff_getElem.mp hm2
        rw [List.getElem_set] at hje
        by_cases hij : i = j
        · rw [if_pos hij] at hje
          rw [← hje]
          constructor
          · rw [show ({ (reg.getD i default) with
              open_cnt := (reg.getD i default).open_cnt - 1 } : inode).sector = s from his]
            show (reg.getD i default).open_cnt - 1 = b s - if s = s then 1 else 0
            rw [if_pos (Eq.refl s), hc1, his]
          · show 1 ≤ (reg.getD i default).open_cnt - 1
            omega
        · rw [if_neg hij] at hje
          have hj2 : j < reg.length := by
            have := hj
            rw [List.length_set] at this
            exact this
          have hmem2 : reg[j] ∈ reg := List.getElem_mem hj2
          have hsec_ne : reg[j].sector ≠ s := by
            intro hcc
            exact hij (hsector_unique j hj2 hcc).symm
          obtain ⟨h1, h2⟩ := hcnt reg[j] hmem2
          rw [← hje]
          refine ⟨?_, h2⟩
          show reg[j].open_cnt = b reg[j].sector - if reg[j].sector = s then 1 else 0
          rw [h1, if_neg hsec_ne, sub_zero]
      · intro x hx
        have he'mem : ({ (reg.getD i default) with
            open_cnt := (reg.getD i default).open_cnt - 1 } : inode) ∈
            reg.set i { (reg.getD i default) with
              open_cnt := (reg.getD i default).open_cnt - 1 } := List.mem_set reg i hil _
        have hxs : x ≠ s := by
          intro hcc
          exact hx _ he'mem (by
            rw [show ({ (reg.getD i default) with
              open_cnt := (reg.getD i default).open_cnt - 1 } : inode).sector = s from his,
              hcc])
        have hold : ∀ ino ∈ reg, ino.sector ≠ x := by
          intro ino hm2 hcc
          obtain ⟨j, hj, hje⟩ := List.mem_iff_getElem.mp hm2
          by_cases hij : j = i
          · apply hxs
            rw [← hcc, ← hje]
            have hri : reg[j] = reg.getD i default := by
              rw [List.getD_eq_getElem reg default hil]
              simp only [hij]
            rw [hri]
            exact his
          · have hj2 : j < (reg.set i { (reg.getD i default) with
                open_cnt := (reg.getD i default).open_cnt - 1 }).length := by
              rw [List.length_set]
              exact hj
            have hset : (reg.set i { (reg.getD i default) with
                open_cnt := (reg.getD i default).open_cnt - 1 })[j] = reg[j] := by
              rw [List.getElem_set, if_neg (fun hcc2 => hij hcc2.symm)]
            have hmem' : ino ∈ reg.set i { (reg.getD i default) with
                open_cnt := (reg.getD i default).open_cnt - 1 } := by
              rw [← hje, ← hset]
              exact List.getElem_mem hj2
            exact hx ino hmem' hcc
        show b x - (if x = s then 1 else 0) = 0
        rw [if_neg hxs, habs x hold]
        simp

theorem stepEvent_opn_reg (σ : FsState) (s : Nat) :
    (stepEvent σ (InodeEvent.opn s)).open_inodes =
      (inode_open s σ.open_inodes σ.st).2.1 := rfl

theorem stepEvent_cls_reg (σ : FsState) (s : Nat) :
    (stepEvent σ (InodeEvent.cls s)).open_inodes =
      (inode_close s σ.open_inodes σ.st σ.fm).1 := rfl

theorem regInv_run (t : List InodeEvent) : ∀ (σ : FsState) (b : Nat → Int),
    RegInv σ.open_inodes b → validFrom σ t →
    RegInv (runEvents σ t).open_inodes
      (fun x => b x + (countOpens t x : Int) - (countCloses t x : Int)) := by
  induction t with
  | nil =>
    intro σ b hinv _
    refine RegInv_congr (fun x => ?_) hinv
    simp [countOpens, countCloses]
  | cons e rest ih =>
    intro σ b hinv hv
    cases e with
    | opn s =>
      have hstep : RegInv (stepEvent σ (InodeEvent.opn s)).open_inodes
          (fun x => b x + if x = s then 1 else 0) := by
        rw [stepEvent_opn_reg]
        exact regInv_open s σ.open_inodes σ.st b hinv
      have hv' : validFrom (stepEvent σ (InodeEvent.opn s)) rest := hv
      have hrun := ih (stepEvent σ (InodeEvent.opn s)) _ hstep hv'
      refine RegInv_congr (fun x => ?_) hrun
      have ho : countOpens (InodeEvent.opn s :: rest) x =
          countOpens rest x + if x = s then 1 else 0 := by
        unfold countOpens
        rw [List.countP_cons]
        by_cases hx : x = s
        · rw [hx]
          simp
        · rw [if_neg hx, if_neg (by simp; exact fun hc => hx hc.symm)]
      have hc : countCloses (InodeEvent.opn s :: rest) x = countCloses rest x := by
        unfold countCloses
        rw [List.countP_cons]
        simp
      rw [ho, hc]
      push_cast
      ring
    | cls s =>
      obtain ⟨hpresent, hvrest⟩ := hv
      have hstep : RegInv (stepEvent σ (InodeEvent.cls s)).open_inodes
          (fun x => b x - if x = s then 1 else 0) := by
        rw [stepEvent_cls_reg]
        exact regInv_close s σ.open_inodes σ.st σ.fm b hinv hpresent
      have hrun := ih (stepEvent σ (InodeEvent.cls s)) _ hstep hvrest
      refine RegInv_congr (fun x => ?_) hrun
      have ho : countOpens (InodeEvent.cls s :: rest) x = countOpens rest x := by
        unfold countOpens
        rw [List.countP_cons]
        simp
      have hc : countCloses (InodeEvent.cls s :: rest) x =
          countCloses rest x + if x = s then 1 else 0 := by
        unfold countCloses
        rw [List.countP_cons]
        by_cases hx : x = s
        · rw [hx]
          simp
        · rw [if_neg hx, if_neg (by simp; exact fun hc => hx hc.symm)]
      rw [ho, hc]
      push_cast
      ring

/-- C9: along any valid trace of open and close events from the initial state, the
open-inode registry holds at most one record per sector (opening an already-open
sector reopens the existing record in place, never adding a duplicate), and every
record's `open_cnt` equals the number of opens of its sector not yet matched by a
close. -/
theorem c9_identity_map (t : List InodeEvent) (dev : Nat → List Nat)
    (hv : validFrom (initFs dev) t) :
    ((runEvents (initFs dev) t).open_inodes.map (fun ino => ino.sector)).Nodup ∧
    ∀ ino ∈ (runEvents (initFs dev) t).open_inodes,
      ino.open_cnt = (countOpens t ino.sector : Int) - (countCloses t ino.sector : Int) := by
  have h0 : RegInv (initFs dev).open_inodes (fun _ => 0) := by
    refine ⟨by simp [initFs], ?_, fun s _ => rfl⟩
    intro ino hm
    simp [initFs] at hm
  have h := regInv_run t (initFs dev) _ h0 hv
  refine ⟨h.1, fun ino hm => ?_⟩
  have h2 : ino.open_cnt = 0 + (countOpens t ino.sector : Int) -
      (countCloses t ino.sector : Int) := (h.2.1 ino hm).1
  omega

theorem c9_witness :
    validFrom (initFs device0) tW ∧
    (((runEvents (initFs device0) tW).open_inodes.map (fun ino => ino.sector)).Nodup ∧
     ∀ ino ∈ (runEvents (initFs device0) tW).open_inodes,
       ino.open_cnt = (countOpens tW ino.sector : Int) - (countCloses tW ino.sector : Int)) := by
  have hv : validFrom (initFs device0) tW := by
    show (∃ ino ∈ (stepEvent (stepEvent (initFs device0) (InodeEvent.opn 5))
      (InodeEvent.opn 5)).open_inodes, ino.sector = 5) ∧ True
    exact ⟨by decide, trivial⟩
  exact ⟨hv, c9_identity_map tW device0 hv⟩

theorem direct_fold_spec (l : Nat) : ∀ (direct : List Nat) (st : CacheState) (fm : FreeMap),
    CacheInv st → l ≤ direct.length →
    CacheInv ((List.range l).foldl
      (fun acc i =>
        let (direct, st, fm) := acc
        let (s, fm) := free_map_allocate fm
        let st := fs_cache_write s zerosBlock st
        (direct.set i s, st, fm))
      (direct, st, fm)).2.1 ∧
    ((List.range l).foldl
      (fun acc i =>
        let (direct, st, fm) := acc
        let (s, fm) := free_map_allocate fm
        let st := fs_cache_write s zerosBlock st
        (direct.set i s, st, fm))
      (direct, st, fm)).2.2.next = fm.next + l ∧
    ((List.range l).foldl
      (fun acc i =>
        let (direct, st, fm) := acc
        let (s, fm) := free_map_allocate fm
        let st := fs_cache_write s zerosBlock st
        (direct.set i s, st, fm))
      (direct, st, fm)).1.length = direct.length ∧
    (∀ i, i < l → ((List.range l).foldl
      (fun acc i =>
        let (direct, st, fm) := acc
        let (s, fm) := free_map_allocate fm
        let st := fs_cache_write s zerosBlock st
        (direct.set i s, st, fm))
      (direct, st, fm)).1.getD i 0 = fm.next + i) ∧
    (∀ i, i < l → content ((List.range l).foldl
      (fun acc i =>
        let (direct, st, fm) := acc
        let (s, fm) := free_map_allocate fm
        let st := fs_cache_write s zerosBlock st
        (direct.set i s, st, fm))
      (direct, st, fm)).2.1 (fm.next + i) = zerosBlock) := by
  induction l with
  | zero =>
    intro direct st fm hInv _
    refine ⟨hInv, by simp, rfl, ?_, ?_⟩
    · intro i hi
      omega
    · intro i hi
      omega
  | succ l ih =>
    intro direct st fm hInv hl
    obtain ⟨I1, I2, I3, I4, I5⟩ := ih direct st fm hInv (by omega)
    rw [List.range_succ, List.foldl_append]
    obtain ⟨W1, W2, W3, _⟩ := fs_cache_write_spec
      (((List.range l).foldl
        (fun acc i =>
          let (direct, st, fm) := acc
          let (s, fm) := free_map_allocate fm
          let st := fs_cache_write s zerosBlock st
          (direct.set i s, st, fm))
        (direct, st, fm)).2.2.next) zerosBlock
      (((List.range l).foldl
        (fun acc i =>
          let (direct, st, fm) := acc
          let (s, fm) := free_map_allocate fm
          let st := fs_cache_write s zerosBlock st
          (direct.set i s, st, fm))
        (direct, st, fm)).2.1) I1
    refine ⟨W1, ?_, ?_, ?_, ?_⟩
    · show (((List.range l).foldl
        (fun acc i =>
          let (direct, st, fm) := acc
          let (s, fm) := free_map_allocate fm
          let st := fs_cache_write s zerosBlock st
          (direct.set i s, st, fm))
        (direct, st, fm)).2.2.next) + 1 = fm.next + (l + 1)
      rw [I2]
      omega
    · show (((List.range l).foldl
        (fun acc i =>
          let (direct, st, fm) := acc
          let (s, fm) := free_map_allocate fm
          let st := fs_cache_write s zerosBlock st
          (direct.set i s, st, fm))
        (direct, st, fm)).1.set l _).length = direct.length
      rw [List.length_set]
      exact I3
    · intro i hi
      by_cases hil : i = l
      · rw [hil]
        show (((List.range l).foldl
          (fun acc i =>
            let (direct, st, fm) := acc
            let (s, fm) := free_map_allocate fm
            let st := fs_cache_write s zerosBlock st
            (direct.set i s, st, fm))
          (direct, st, fm)).1.set l
          ((List.range l).foldl
          (fun acc i =>
            let (direct, st, fm) := acc
            let (s, fm) := free_map_allocate fm
            let st := fs_cache_write s zerosBlock st
            (direct.set i s, st, fm))
          (direct, st, fm)).2.2.next).getD l 0 =
          fm.next + l
        rw [list_getD_set_self _ _ _ _ (by rw [I3]; omega), I2]
      · show (((List.range l).foldl
          (fun acc i =>
            let (direct, st, fm) := acc
            let (s, fm) := free_map_allocate fm
            let st := fs_cache_write s zerosBlock st
            (direct.set i s, st, fm))
          (direct, st, fm)).1.set l _).getD i 0 = fm.next + i
        rw [list_getD_set_ne _ _ _ (fun h => hil h.symm)]
        exact I4 i (by omega)
    · intro i hi
      by_cases hil : i = l
      · rw [hil]
        show content (fs_cache_write _ zerosBlock _) (fm.next + l) = zerosBlock
        rw [← I2]
        exact W2
      · show content (fs_cache_write _ zerosBlock _) (fm.next + i) = zerosBlock
        rw [W3 (fm.next + i) (by rw [I2]; omega)]
        exact I5 i (by omega)

theorem foldl_preserve {α β : Type} (P : α → Prop) (f : α → β → α) (l : List β) (a : α)
    (h : P a) (step : ∀ x b, P x → P (f x b)) : P (l.foldl f a) := by
  induction l generalizing a with
  | nil => exact h
  | cons b t ih => exact ih (f a b) (step a b h)

theorem fmPos_allocate (fm : FreeMap) (h : FmPos fm) :
    FmPos (free_map_allocate fm).2 ∧ 1 ≤ (free_map_allocate fm).1 := by
  obtain ⟨h1, h2⟩ := h
  refine ⟨⟨?_, ?_⟩, ?_⟩
  · show 1 ≤ fm.next + 1
    omega
  · intro s hs
    have hs' : s ∈ fm.allocated ++ [fm.next] := hs
    rcases List.mem_append.mp hs' with hs'' | hs''
    · exact h2 s hs''
    · have : s = fm.next := List.mem_singleton.mp hs''
      omega
  · exact h1

/-- Unfolding of the positive-depth case of `inode_allocate_indirect`, restated with
tuple projections in place of the pattern-matching lets. -/
theorem alloc_indirect_succ (d e n : Nat) (st : CacheState) (fm : FreeMap) :
    inode_allocate_indirect (d + 1) e n st fm =
      (let efm := if e = 0 then
          ((free_map_allocate fm).1,
            fs_cache_write (free_map_allocate fm).1 zerosBlock st,
            (free_map_allocate fm).2)
        else (e, st, fm)
       let b := (fs_cache_read efm.1 efm.2.1).1
       let st1 := (fs_cache_read efm.1 efm.2.1).2
       let blocks := decInd b
       let n1 := if d = 0 then 1 else INDIRECT_BLOCKS
       let l := (n + n1 - 1) / n1
       let r := (List.range l).foldl
         (fun acc i =>
           (acc.1.set i (inode_allocate_indirect d (acc.1.getD i 0) (min acc.2.1 n1)
              acc.2.2.1 acc.2.2.2).1,
            acc.2.1 - min acc.2.1 n1,
            (inode_allocate_indirect d (acc.1.getD i 0) (min acc.2.1 n1)
              acc.2.2.1 acc.2.2.2).2.1,
            (inode_allocate_indirect d (acc.1.getD i 0) (min acc.2.1 n1)
              acc.2.2.1 acc.2.2.2).2.2))
         (blocks, n, st1, efm.2.2)
       (efm.1, fs_cache_write efm.1 (encInd r.1) r.2.2.1, r.2.2.2)) := rfl

theorem fmPos_alloc_indirect :
    ∀ (d e n : Nat) (st : CacheState) (fm : FreeMap), FmPos fm →
      FmPos (inode_allocate_indirect d e n st fm).2.2 := by
  intro d
  induction d with
  | zero =>
    intro e n st fm h
    exact (fmPos_allocate fm h).1
  | succ d ih =>
    intro e n st fm h
    rw [alloc_indirect_succ]
    dsimp only
    refine foldl_preserve
      (fun acc : List Nat × Nat × CacheState × FreeMap => FmPos acc.2.2.2) _ _ _ ?_ ?_
    · dsimp only
      by_cases he : e = 0
      · rw [if_pos he]
        exact (fmPos_allocate fm h).1
      · rw [if_neg he]
        exact h
    · intro x i hx
      dsimp only
      exact ih _ _ _ _ hx

/-- Unfolding of `inode_allocate`, restated with tuple projections in place of the
pattern-matching lets. -/
theorem inode_allocate_eq (d : inode_disk) (st : CacheState) (fm : FreeMap) :
    inode_allocate d st fm =
      (if d.length < 0 then (false, d, st, fm)
      else
        let nsectors := bytes_to_sectors d.length
        let l := min nsectors DIRECT_BLOCKS
        let r := (List.range l).foldl
          (fun acc i =>
            (acc.1.set i (free_map_allocate acc.2.2).1,
              fs_cache_write (free_map_allocate acc.2.2).1 zerosBlock acc.2.1,
              (free_map_allocate acc.2.2).2))
          (d.direct_blocks, st, fm)
        let d1 := { d with direct_blocks := r.1 }
        let ns1 := nsectors - l
        if ns1 = 0 then (true, d1, r.2.1, r.2.2)
        else
          let l1 := min ns1 INDIRECT_BLOCKS
          let a1 := inode_allocate_indirect 1 d1.indirect_block l1 r.2.1 r.2.2
          let d2 := { d1 with indirect_block := a1.1 }
          let ns2 := ns1 - l1
          if ns2 = 0 then (true, d2, a1.2.1, a1.2.2)
          else
            let l2 := min ns2 DOUBLE_INDIRECT_BLOCKS
            let a2 := inode_allocate_indirect 1 d2.indirect_block l2 a1.2.1 a1.2.2
            let d3 := { d2 with indirect_block := a2.1 }
            let ns3 := ns2 - l2
            if ns3 = 0 then (true, d3, a2.2.1, a2.2.2)
            else (false, d3, a2.2.1, a2.2.2)) := rfl

theorem fmPos_inode_allocate (d : inode_disk) (st : CacheState) (fm : FreeMap)
    (h : FmPos fm) : FmPos (inode_allocate d st fm).2.2.2 := by
  rw [inode_allocate_eq]
  have hdir : FmPos ((List.range (min (bytes_to_sectors d.length) DIRECT_BLOCKS)).foldl
      (fun (acc : List Nat × CacheState × FreeMap) i =>
        (acc.1.set i (free_map_allocate acc.2.2).1,
          fs_cache_write (free_map_allocate acc.2.2).1 zerosBlock acc.2.1,
          (free_map_allocate acc.2.2).2))
      (d.direct_blocks, st, fm)).2.2 := by
    refine foldl_preserve
      (fun acc : List Nat × CacheState × FreeMap => FmPos acc.2.2) _ _ _ h ?_
    intro x i hx
    dsimp only
    exact (fmPos_allocate x.2.2 hx).1
  split
  · exact h
  · try dsimp only
    split
    · exact hdir
    · try dsimp only
      split
      · exact fmPos_alloc_indirect 1 _ _ _ _ hdir
      · try dsimp only
        split
        · exact fmPos_alloc_indirect 1 _ _ _ _ (fmPos_alloc_indirect 1 _ _ _ _ hdir)
        · exact fmPos_alloc_indirect 1 _ _ _ _ (fmPos_alloc_indirect 1 _ _ _ _ hdir)

/-- Unfolding of the positive-depth case of `inode_deallocate_indirect`, restated
with tuple projections in place of the pattern-matching lets. -/
theorem dealloc_indirect_succ (d e n : Nat) (st : CacheState) (fm : FreeMap) :
    inode_deallocate_indirect (d + 1) e n st fm =
      (let b := (fs_cache_read e st).1
       let st1 := (fs_cache_read e st).2
       let blocks := decInd b
       let n1 := if d = 0 then 1 else INDIRECT_BLOCKS
       let l := (n + n1 - 1) / n1
       let r := (List.range l).foldl
         (fun acc i =>
           (acc.1 - min acc.1 n1,
            (inode_deallocate_indirect d (blocks.getD i 0) (min acc.1 n1)
              acc.2.1 acc.2.2).1,
            (inode_deallocate_indirect d (blocks.getD i 0) (min acc.1 n1)
              acc.2.1 acc.2.2).2))
         (n, st1, fm)
       (r.2.1, free_map_release e r.2.2)) := rfl

/-- At positive depth, `inode_deallocate_indirect` always ends by releasing the
indirection-block entry it was handed, whatever that entry holds. -/
theorem dealloc_indirect_releases_root (d e n : Nat) (st : CacheState) (fm : FreeMap) :
    e ∈ (inode_deallocate_indirect (d + 1) e n st fm).2.released := by
  rw [dealloc_indirect_succ]
  dsimp only
  simp [free_map_release]

theorem dealloc_indirect_releases_root2 (e n : Nat) (st : CacheState) (fm : FreeMap) :
    e ∈ (inode_deallocate_indirect 2 e n st fm).2.released :=
  dealloc_indirect_releases_root 1 e n st fm

/-- Unfolding of `inode_deallocate`, restated with tuple projections in place of
the pattern-matching lets. -/
theorem inode_deallocate_eq (ino : inode) (st : CacheState) (fm : FreeMap) :
    inode_deallocate ino st fm =
      (if ino.data.length < 0 then (false, st, fm)
      else
        let nsectors := bytes_to_sectors ino.data.length
        let l := min nsectors DIRECT_BLOCKS
        let fm1 := (List.range l).foldl
          (fun fm i => free_map_release (ino.data.direct_blocks.getD i 0) fm) fm
        let ns1 := nsectors - l
        let l1 := min ns1 INDIRECT_BLOCKS
        let p1 := if 0 < l1 then
            inode_deallocate_indirect 1 ino.data.indirect_block l1 st fm1
          else (st, fm1)
        let ns2 := ns1 - l1
        let l2 := min ns2 DOUBLE_INDIRECT_BLOCKS
        let p2 := if 0 < l2 then
            inode_deallocate_indirect 2 ino.data.double_indirect_block l2 p1.1 p1.2
          else p1
        (true, p2.1, p2.2)) := rfl

/-- Deallocating any inode record that reaches the third tier (more than
124 + 128 = 252 sectors) releases the sector address stored in its
`double_indirect_block` field to the allocator, whatever the cache holds. -/
theorem inode_deallocate_releases_double (ino : inode) (st : CacheState) (fm : FreeMap)
    (h : 252 < bytes_to_sectors ino.data.length) :
    ino.data.double_indirect_block ∈ (inode_deallocate ino st fm).2.2.released := by
  have hlen : ¬ ino.data.length < 0 := by
    intro hneg
    have ht : ino.data.length.toNat = 0 := Int.toNat_of_nonpos (le_of_lt hneg)
    have hz : bytes_to_sectors ino.data.length = 0 := by
      show (ino.data.length.toNat + (BLOCK_SECTOR_SIZE - 1)) / BLOCK_SECTOR_SIZE = 0
      rw [ht]
      decide
    omega
  rw [inode_deallocate_eq]
  rw [if_neg hlen]
  dsimp only
  have hc2 : 0 < min (bytes_to_sectors ino.data.length -
      min (bytes_to_sectors ino.data.length) DIRECT_BLOCKS -
      min (bytes_to_sectors ino.data.length -
        min (bytes_to_sectors ino.data.length) DIRECT_BLOCKS) INDIRECT_BLOCKS)
      DOUBLE_INDIRECT_BLOCKS := by
    show 0 < min (bytes_to_sectors ino.data.length -
      min (bytes_to_sectors ino.data.length) 124 -
      min (bytes_to_sectors ino.data.length -
        min (bytes_to_sectors ino.data.length) 124) 128) (128 * 128)
    omega
  rw [if_pos hc2]
  exact dealloc_indirect_releases_root2 _ _ _ _

/-- The allocation engine never changes the `length` field of the record. -/
theorem inode_allocate_keeps_length (d : inode_disk) (st : CacheState) (fm : FreeMap) :
    (inode_allocate d st fm).2.1.length = d.length := by
  unfold inode_allocate
  repeat' (first | split | dsimp only)

/-- C1: contrary to the claim, the allocation engine never populates the
double-indirect subtree for any length whatsoever: `inode_allocate` never assigns
`double_indirect_block` (its third tier passes `&disk_inode->indirect_block` again,
at depth 1, cache.c line 605), so for every starting record, state and allocator the
field comes back exactly as it went in — for a freshly created file it stays the
"unallocated" sentinel 0 and no child IndirectBlock referenced from a
double-indirect block ever exists. -/
theorem c1_double_indirect_never_built :
    ∀ (d : inode_disk) (st : CacheState) (fm : FreeMap),
      (inode_allocate d st fm).2.1.double_indirect_block = d.double_indirect_block :=
  inode_allocate_keeps_double_indirect

/-- C2: contrary to the claim, deallocation does not release the same sector set
that allocation obtained.  First conjunct: an allocator that has only ever handed
out positive addresses (such as the pristine `fm0`) still holds only positive
addresses in `allocated` after any `inode_allocate` run, so sector 0 is never
obtained.  Second conjunct: deallocating the very record a successful or failed
allocation produced for a file that reaches the third tier (more than 252 sectors,
created with the 0 sentinel in `double_indirect_block`, which allocation preserves
by the C1 bug) releases sector 0 — an address the allocator never handed out —
so the released set differs from the allocated set. -/
theorem c2_alloc_dealloc_asymmetric :
    (∀ (d : inode_disk) (st : CacheState) (fm : FreeMap),
      1 ≤ fm.next → (∀ s ∈ fm.allocated, 1 ≤ s) →
      ∀ s ∈ (inode_allocate d st fm).2.2.2.allocated, 1 ≤ s)
    ∧ (∀ (d : inode_disk) (st st' : CacheState) (fm fm' : FreeMap)
        (sec : Nat) (oc dw : Int) (rm : Bool),
      252 < bytes_to_sectors d.length → d.double_indirect_block = 0 →
      0 ∈ (inode_deallocate
            { sector := sec, open_cnt := oc, removed := rm, deny_write_cnt := dw,
              data := (inode_allocate d st fm).2.1 } st' fm').2.2.released) := by
  constructor
  · intro d st fm h1 h2 s hs
    exact (fmPos_inode_allocate d st fm ⟨h1, h2⟩).2 s hs
  · intro d st st' fm fm' sec oc dw rm hb hd0
    have hmem := inode_deallocate_releases_double
      (inode.mk sec oc rm dw (inode_allocate d st fm).2.1) st' fm'
      (by
        show 252 < bytes_to_sectors (inode_allocate d st fm).2.1.length
        rw [inode_allocate_keeps_length]
        exact hb)
    have hdz : (inode.mk sec oc rm dw (inode_allocate d st fm).2.1).data.double_indirect_block
        = 0 := by
      show (inode_allocate d st fm).2.1.double_indirect_block = 0
      rw [inode_allocate_keeps_double_indirect]
      exact hd0
    rw [hdz] at hmem
    exact hmem

theorem c2_witness :
    1 ≤ (inode_allocate inoW.data st0 fm0).2.2.2.allocated.getD 0 1
    ∧ 0 ∈ dealloc253.2.2.released :=
  ⟨c2_alloc_dealloc_asymmetric.1 inoW.data st0 fm0 (by decide) (by decide) _ (by decide),
   c2_alloc_dealloc_asymmetric.2 disk253 st0 alloc253.2.2.1 fm0 alloc253.2.2.2 0 1 0 true
     (by decide) rfl⟩

/-- One allocation extends the covered window by the address it hands out. -/
theorem fmWindow_allocate (c : Nat) (fm : FreeMap) (h : FmWindow c fm) :
    FmWindow c (free_map_allocate fm).2 := by
  obtain ⟨h1, h2⟩ := h
  constructor
  · show c ≤ fm.next + 1
    omega
  · intro s hs1 hs2
    have hs2' : s < fm.next + 1 := hs2
    show s ∈ fm.allocated ++ [fm.next]
    by_cases he : s = fm.next
    · exact List.mem_append_right _ (by rw [he]; exact List.mem_singleton_self _)
    · exact List.mem_append_left _ (h2 s hs1 (by omega))

theorem fmWindow_alloc_indirect (c : Nat) :
    ∀ (d e n : Nat) (st : CacheState) (fm : FreeMap), FmWindow c fm →
      FmWindow c (inode_allocate_indirect d e n st fm).2.2 := by
  intro d
  induction d with
  | zero =>
    intro e n st fm h
    exact fmWindow_allocate c fm h
  | succ d ih =>
    intro e n st fm h
    rw [alloc_indirect_succ]
    dsimp only
    refine foldl_preserve
      (fun acc : List Nat × Nat × CacheState × FreeMap => FmWindow c acc.2.2.2) _ _ _ ?_ ?_
    · dsimp only
      by_cases he : e = 0
      · rw [if_pos he]
        exact fmWindow_allocate c fm h
      · rw [if_neg he]
        exact h
    · intro x i hx
      dsimp only
      exact ih _ _ _ _ hx

/-- Every sector address of the window the `inode_allocate` run consumed is
recorded in `allocated`. -/
theorem fmWindow_inode_allocate (c : Nat) (d : inode_disk) (st : CacheState)
    (fm : FreeMap) (h : FmWindow c fm) : FmWindow c (inode_allocate d st fm).2.2.2 := by
  rw [inode_allocate_eq]
  have hdir : FmWindow c ((List.range (min (bytes_to_sectors d.length) DIRECT_BLOCKS)).foldl
      (fun (acc : List Nat × CacheState × FreeMap) i =>
        (acc.1.set i (free_map_allocate acc.2.2).1,
          fs_cache_write (free_map_allocate acc.2.2).1 zerosBlock acc.2.1,
          (free_map_allocate acc.2.2).2))
      (d.direct_blocks, st, fm)).2.2 := by
    refine foldl_preserve
      (fun acc : List Nat × CacheState × FreeMap => FmWindow c acc.2.2) _ _ _ h ?_
    intro x i hx
    dsimp only
    exact fmWindow_allocate c x.2.2 hx
  split
  · exact h
  · try dsimp only
    split
    · exact hdir
    · try dsimp only
      split
      · exact fmWindow_alloc_indirect c 1 _ _ _ _ hdir
      · try dsimp only
        split
        · exact fmWindow_alloc_indirect c 1 _ _ _ _
            (fmWindow_alloc_indirect c 1 _ _ _ _ hdir)
        · exact fmWindow_alloc_indirect c 1 _ _ _ _
            (fmWindow_alloc_indirect c 1 _ _ _ _ hdir)

/-- Depth 0 of `inode_allocate_indirect`: obtain one data sector and zero-fill it
through the cache. -/
theorem alloc_indirect_zero (e n : Nat) (st : CacheState) (fm : FreeMap) :
    inode_allocate_indirect 0 e n st fm =
      (fm.next, fs_cache_write fm.next zerosBlock st, (free_map_allocate fm).2) := rfl

/-- The direct-tier fold of `inode_allocate`: the cache invariant is kept, the
allocator advances by one address per leaf, every consumed address reads back
through the cache as the all-zero sector, and the content of every sector below
the starting `next` is untouched. -/
theorem dfold_spec (l : Nat) : ∀ (direct : List Nat) (st : CacheState) (fm : FreeMap),
    CacheInv st →
    CacheInv ((List.range l).foldl
      (fun (acc : List Nat × CacheState × FreeMap) i =>
        (acc.1.set i (free_map_allocate acc.2.2).1,
          fs_cache_write (free_map_allocate acc.2.2).1 zerosBlock acc.2.1,
          (free_map_allocate acc.2.2).2))
      (direct, st, fm)).2.1 ∧
    ((List.range l).foldl
      (fun (acc : List Nat × CacheState × FreeMap) i =>
        (acc.1.set i (free_map_allocate acc.2.2).1,
          fs_cache_write (free_map_allocate acc.2.2).1 zerosBlock acc.2.1,
          (free_map_allocate acc.2.2).2))
      (direct, st, fm)).2.2.next = fm.next + l ∧
    (∀ s, fm.next ≤ s → s < fm.next + l →
      content ((List.range l).foldl
        (fun (acc : List Nat × CacheState × FreeMap) i =>
          (acc.1.set i (free_map_allocate acc.2.2).1,
            fs_cache_write (free_map_allocate acc.2.2).1 zerosBlock acc.2.1,
            (free_map_allocate acc.2.2).2))
        (direct, st, fm)).2.1 s = zerosBlock) ∧
    (∀ x, x < fm.next →
      content ((List.range l).foldl
        (fun (acc : List Nat × CacheState × FreeMap) i =>
          (acc.1.set i (free_map_allocate acc.2.2).1,
            fs_cache_write (free_map_allocate acc.2.2).1 zerosBlock acc.2.1,
            (free_map_allocate acc.2.2).2))
        (direct, st, fm)).2.1 x = content st x) := by
  induction l with
  | zero =>
    intro direct st fm hInv
    refine ⟨hInv, ?_, ?_, ?_⟩
    · show fm.next = fm.next + 0
      omega
    · intro s h1 h2
      omega
    · intro x hx
      rfl
  | succ l ih =>
    intro direct st fm hInv
    obtain ⟨I1, I2, I3, I4⟩ := ih direct st fm hInv
    rw [List.range_succ, List.foldl_append, List.foldl_cons, List.foldl_nil]
    generalize hR : (List.range l).foldl
      (fun (acc : List Nat × CacheState × FreeMap) i =>
        (acc.1.set i (free_map_allocate acc.2.2).1,
          fs_cache_write (free_map_allocate acc.2.2).1 zerosBlock acc.2.1,
          (free_map_allocate acc.2.2).2))
      (direct, st, fm) = Rn at I1 I2 I3 I4 ⊢
    dsimp only [free_map_allocate]
    obtain ⟨W1, W2, W3, _⟩ := fs_cache_write_spec Rn.2.2.next zerosBlock Rn.2.1 I1
    refine ⟨W1, ?_, ?_, ?_⟩
    · show Rn.2.2.next + 1 = fm.next + (l + 1)
      omega
    · intro s h1 h2
      by_cases hs : s = fm.next + l
      · rw [hs, ← I2]
        exact W2
      · rw [W3 s (by omega)]
        exact I3 s h1 (by omega)
    · intro x hx
      rw [W3 x (by omega)]
      exact I4 x hx

/-- The leaf fold of a depth-1 `inode_allocate_indirect` call: the cache
invariant is kept, the allocator advances by one address per leaf, every consumed
address reads back through the cache as the all-zero sector, and the content of
every sector below the starting `next` is untouched. -/
theorem leaf_fold_spec (n : Nat) : ∀ (blocks : List Nat) (ns : Nat) (st : CacheState)
    (fm : FreeMap), CacheInv st →
    CacheInv ((List.range n).foldl
      (fun (acc : List Nat × Nat × CacheState × FreeMap) i =>
        (acc.1.set i (inode_allocate_indirect 0 (acc.1.getD i 0) (min acc.2.1 1)
            acc.2.2.1 acc.2.2.2).1,
          acc.2.1 - min acc.2.1 1,
          (inode_allocate_indirect 0 (acc.1.getD i 0) (min acc.2.1 1)
            acc.2.2.1 acc.2.2.2).2.1,
          (inode_allocate_indirect 0 (acc.1.getD i 0) (min acc.2.1 1)
            acc.2.2.1 acc.2.2.2).2.2))
      (blocks, ns, st, fm)).2.2.1 ∧
    ((List.range n).foldl
      (fun (acc : List Nat × Nat × CacheState × FreeMap) i =>
        (acc.1.set i (inode_allocate_indirect 0 (acc.1.getD i 0) (min acc.2.1 1)
            acc.2.2.1 acc.2.2.2).1,
          acc.2.1 - min acc.2.1 1,
          (inode_allocate_indirect 0 (acc.1.getD i 0) (min acc.2.1 1)
            acc.2.2.1 acc.2.2.2).2.1,
          (inode_allocate_indirect 0 (acc.1.getD i 0) (min acc.2.1 1)
            acc.2.2.1 acc.2.2.2).2.2))
      (blocks, ns, st, fm)).2.2.2.next = fm.next + n ∧
    (∀ s, fm.next ≤ s → s < fm.next + n →
      content ((List.range n).foldl
        (fun (acc : List Nat × Nat × CacheState × FreeMap) i =>
          (acc.1.set i (inode_allocate_indirect 0 (acc.1.getD i 0) (min acc.2.1 1)
              acc.2.2.1 acc.2.2.2).1,
            acc.2.1 - min acc.2.1 1,
            (inode_allocate_indirect 0 (acc.1.getD i 0) (min acc.2.1 1)
              acc.2.2.1 acc.2.2.2).2.1,
            (inode_allocate_indirect 0 (acc.1.getD i 0) (min acc.2.1 1)
              acc.2.2.1 acc.2.2.2).2.2))
        (blocks, ns, st, fm)).2.2.1 s = zerosBlock) ∧
    (∀ x, x < fm.next →
      content ((List.range n).foldl
        (fun (acc : List Nat × Nat × CacheState × FreeMap) i =>
          (acc.1.set i (inode_allocate_indirect 0 (acc.1.getD i 0) (min acc.2.1 1)
              acc.2.2.1 acc.2.2.2).1,
            acc.2.1 - min acc.2.1 1,
            (inode_allocate_indirect 0 (acc.1.getD i 0) (min acc.2.1 1)
              acc.2.2.1 acc.2.2.2).2.1,
            (inode_allocate_indirect 0 (acc.1.getD i 0) (min acc.2.1 1)
              acc.2.2.1 acc.2.2.2).2.2))
        (blocks, ns, st, fm)).2.2.1 x = content st x) := by
  induction n with
  | zero =>
    intro blocks ns st fm hInv
    refine ⟨hInv, ?_, ?_, ?_⟩
    · show fm.next = fm.next + 0
      omega
    · intro s h1 h2
      omega
    · intro x hx
      rfl
  | succ n ih =>
    intro blocks ns st fm hInv
    obtain ⟨I1, I2, I3, I4⟩ := ih blocks ns st fm hInv
    rw [List.range_succ, List.foldl_append, List.foldl_cons, List.foldl_nil]
    generalize hR : (List.range n).foldl
      (fun (acc : List Nat × Nat × CacheState × FreeMap) i =>
        (acc.1.set i (inode_allocate_indirect 0 (acc.1.getD i 0) (min acc.2.1 1)
            acc.2.2.1 acc.2.2.2).1,
          acc.2.1 - min acc.2.1 1,
          (inode_allocate_indirect 0 (acc.1.getD i 0) (min acc.2.1 1)
            acc.2.2.1 acc.2.2.2).2.1,
          (inode_allocate_indirect 0 (acc.1.getD i 0) (min acc.2.1 1)
            acc.2.2.1 acc.2.2.2).2.2))
      (blocks, ns, st, fm) = Rn at I1 I2 I3 I4 ⊢
    dsimp only
    rw [alloc_indirect_zero]
    dsimp only [free_map_allocate]
    obtain ⟨W1, W2, W3, _⟩ := fs_cache_write_spec Rn.2.2.2.next zerosBlock Rn.2.2.1 I1
    refine ⟨W1, ?_, ?_, ?_⟩
    · show Rn.2.2.2.next + 1 = fm.next + (n + 1)
      omega
    · intro s h1 h2
      by_cases hs : s = fm.next + n
      · rw [hs, ← I2]
        exact W2
      · rw [W3 s (by omega)]
        exact I3 s h1 (by omega)
    · intro x hx
      rw [W3 x (by omega)]
      exact I4 x hx

/-- Full specification of a depth-1 `inode_allocate_indirect` call: the root is
the entry handed in (or a fresh address when handed the 0 sentinel), every
consumed address except the root itself reads back through the cache as the
all-zero sector, and every other sector below the starting `next` is untouched. -/
theorem alloc_indirect_one_spec (e n : Nat) (st : CacheState) (fm : FreeMap)
    (hInv : CacheInv st) :
    CacheInv (inode_allocate_indirect 1 e n st fm).2.1 ∧
    (inode_allocate_indirect 1 e n st fm).1 = (if e = 0 then fm.next else e) ∧
    (inode_allocate_indirect 1 e n st fm).2.2.next
      = (if e = 0 then fm.next + 1 else fm.next) + n ∧
    (∀ s, fm.next ≤ s → s < (inode_allocate_indirect 1 e n st fm).2.2.next →
      s ≠ (inode_allocate_indirect 1 e n st fm).1 →
      content (inode_allocate_indirect 1 e n st fm).2.1 s = zerosBlock) ∧
    (∀ x, x < fm.next → x ≠ (inode_allocate_indirect 1 e n st fm).1 →
      content (inode_allocate_indirect 1 e n st fm).2.1 x = content st x) := by
  rw [show inode_allocate_indirect 1 e n st fm
      = inode_allocate_indirect (0 + 1) e n st fm from rfl]
  rw [alloc_indirect_succ]
  dsimp only
  rw [show (if (0 : Nat) = 0 then 1 else INDIRECT_BLOCKS) = 1 from rfl]
  rw [Nat.add_sub_cancel, Nat.div_one]
  by_cases he : e = 0
  · simp only [if_pos he]
    dsimp only [free_map_allocate]
    obtain ⟨P1, P2, P3, _⟩ := fs_cache_write_spec fm.next zerosBlock st hInv
    obtain ⟨RB, RInv, RC, _⟩ :=
      fs_cache_read_spec fm.next (fs_cache_write fm.next zerosBlock st) P1
    obtain ⟨L1, L2, L3, L4⟩ := leaf_fold_spec n
      (decInd (fs_cache_read fm.next (fs_cache_write fm.next zerosBlock st)).1) n
      (fs_cache_read fm.next (fs_cache_write fm.next zerosBlock st)).2
      { next := fm.next + 1, allocated := fm.allocated ++ [fm.next],
        released := fm.released } RInv
    dsimp only at L2 L3 L4
    generalize hRf : (List.range n).foldl
      (fun (acc : List Nat × Nat × CacheState × FreeMap) i =>
        (acc.1.set i (inode_allocate_indirect 0 (acc.1.getD i 0) (min acc.2.1 1)
            acc.2.2.1 acc.2.2.2).1,
          acc.2.1 - min acc.2.1 1,
          (inode_allocate_indirect 0 (acc.1.getD i 0) (min acc.2.1 1)
            acc.2.2.1 acc.2.2.2).2.1,
          (inode_allocate_indirect 0 (acc.1.getD i 0) (min acc.2.1 1)
            acc.2.2.1 acc.2.2.2).2.2))
      (decInd (fs_cache_read fm.next (fs_cache_write fm.next zerosBlock st)).1, n,
        (fs_cache_read fm.next (fs_cache_write fm.next zerosBlock st)).2,
        { next := fm.next + 1, allocated := fm.allocated ++ [fm.next],
          released := fm.released }) = Rf at L1 L2 L3 L4 ⊢
    obtain ⟨F1, F2, F3, _⟩ := fs_cache_write_spec fm.next (encInd Rf.1) Rf.2.2.1 L1
    refine ⟨F1, rfl, L2, ?_, ?_⟩
    · intro s h1 h2 h3
      rw [F3 s h3]
      exact L3 s (by omega) (by omega)
    · intro x hx hxr
      rw [F3 x hxr, L4 x (by omega), RC x]
      exact P3 x hxr
  · simp only [if_neg he]
    obtain ⟨RB, RInv, RC, _⟩ := fs_cache_read_spec e st hInv
    obtain ⟨L1, L2, L3, L4⟩ := leaf_fold_spec n
      (decInd (fs_cache_read e st).1) n (fs_cache_read e st).2 fm RInv
    generalize hRf : (List.range n).foldl
      (fun (acc : List Nat × Nat × CacheState × FreeMap) i =>
        (acc.1.set i (inode_allocate_indirect 0 (acc.1.getD i 0) (min acc.2.1 1)
            acc.2.2.1 acc.2.2.2).1,
          acc.2.1 - min acc.2.1 1,
          (inode_allocate_indirect 0 (acc.1.getD i 0) (min acc.2.1 1)
            acc.2.2.1 acc.2.2.2).2.1,
          (inode_allocate_indirect 0 (acc.1.getD i 0) (min acc.2.1 1)
            acc.2.2.1 acc.2.2.2).2.2))
      (decInd (fs_cache_read e st).1, n, (fs_cache_read e st).2, fm) = Rf
      at L1 L2 L3 L4 ⊢
    obtain ⟨F1, F2, F3, _⟩ := fs_cache_write_spec e (encInd Rf.1) Rf.2.2.1 L1
    refine ⟨F1, trivial, L2, ?_, ?_⟩
    · intro s h1 h2 h3
      rw [F3 s h3]
      exact L3 s h1 (by omega)
    · intro x hx hxr
      rw [F3 x hxr, L4 x hx]
      exact RC x

theorem alloc_indirect_one_zero (n : Nat) (st : CacheState) (fm : FreeMap)
    (hInv : CacheInv st) :
    CacheInv (inode_allocate_indirect 1 0 n st fm).2.1 ∧
    (inode_allocate_indirect 1 0 n st fm).1 = fm.next ∧
    (inode_allocate_indirect 1 0 n st fm).2.2.next = fm.next + 1 + n ∧
    (∀ s, fm.next ≤ s → s < (inode_allocate_indirect 1 0 n st fm).2.2.next →
      s ≠ (inode_allocate_indirect 1 0 n st fm).1 →
      content (inode_allocate_indirect 1 0 n st fm).2.1 s = zerosBlock) ∧
    (∀ x, x < fm.next → x ≠ (inode_allocate_indirect 1 0 n st fm).1 →
      content (inode_allocate_indirect 1 0 n st fm).2.1 x = content st x) :=
  alloc_indirect_one_spec 0 n st fm hInv

theorem alloc_indirect_one_pos (e n : Nat) (st : CacheState) (fm : FreeMap)
    (he : e ≠ 0) (hInv : CacheInv st) :
    CacheInv (inode_allocate_indirect 1 e n st fm).2.1 ∧
    (inode_allocate_indirect 1 e n st fm).1 = e ∧
    (inode_allocate_indirect 1 e n st fm).2.2.next = fm.next + n ∧
    (∀ s, fm.next ≤ s → s < (inode_allocate_indirect 1 e n st fm).2.2.next →
      s ≠ (inode_allocate_indirect 1 e n st fm).1 →
      content (inode_allocate_indirect 1 e n st fm).2.1 s = zerosBlock) ∧
    (∀ x, x < fm.next → x ≠ (inode_allocate_indirect 1 e n st fm).1 →
      content (inode_allocate_indirect 1 e n st fm).2.1 x = content st x) := by
  have H := alloc_indirect_one_spec e n st fm hInv
  rw [if_neg he, if_neg he] at H
  exact H

/-- C7: every data sector consumed by the allocation engine is written through
the cache with all-zero content at allocation time.  First conjunct: for every
starting record carrying the 0 sentinel in `indirect_block` (as `inode_create`
builds it), every cache state satisfying the cache invariant and every healthy
allocator, each sector address the allocator hands out during the
`inode_allocate` run — the window from the starting `next` to the final one,
whatever the file's length, so direct-tier, indirect-tier and third-tier data
sectors alike — is recorded in `allocated`, and each of them other than the
indirection block recorded in the returned record reads back through the cache
as the all-zero sector.  Second conjunct, the spec's concrete scenario: writing
the byte 9 at offset 0 of a freshly created 1-sector file and reading the whole
sector back yields 9 at position 0 and zero at positions 1..511. -/
theorem c7_zero_fill :
    (∀ (disk : inode_disk) (st : CacheState) (fm : FreeMap),
      CacheInv st → disk.indirect_block = 0 → 1 ≤ fm.next →
      ∀ s, fm.next ≤ s → s < (inode_allocate disk st fm).2.2.2.next →
        s ∈ (inode_allocate disk st fm).2.2.2.allocated
        ∧ (s ≠ (inode_allocate disk st fm).2.1.indirect_block →
          content (inode_allocate disk st fm).2.2.1 s = zerosBlock))
    ∧ scenario7 = some (1, 9 :: List.replicate 511 0) := by
  constructor
  · intro disk st fm hInv hib hpos s hs1 hs2
    constructor
    · exact (fmWindow_inode_allocate fm.next disk st fm
        ⟨le_refl _, fun t h1 h2 => absurd h2 (by omega)⟩).2 s hs1 hs2
    · intro hroot
      rw [inode_allocate_eq] at hs2 hroot ⊢
      by_cases hneg : disk.length < 0
      · rw [if_pos hneg] at hs2
        try dsimp only at hs2
        omega
      · rw [if_neg hneg] at hs2 hroot ⊢
        dsimp only at hs2 hroot ⊢
        rw [hib] at hs2 hroot ⊢
        obtain ⟨D1, D2, D3, D4⟩ := dfold_spec
          (min (bytes_to_sectors disk.length) DIRECT_BLOCKS) disk.direct_blocks st fm hInv
        generalize hDr : (List.range (min (bytes_to_sectors disk.length) DIRECT_BLOCKS)).foldl
          (fun (acc : List Nat × CacheState × FreeMap) i =>
            (acc.1.set i (free_map_allocate acc.2.2).1,
              fs_cache_write (free_map_allocate acc.2.2).1 zerosBlock acc.2.1,
              (free_map_allocate acc.2.2).2))
          (disk.direct_blocks, st, fm) = Dr at D1 D2 D3 D4 hs2 hroot ⊢
        by_cases h1 : bytes_to_sectors disk.length -
            min (bytes_to_sectors disk.length) DIRECT_BLOCKS = 0
        · rw [if_pos h1] at hs2 ⊢
          dsimp only at hs2 ⊢
          exact D3 s hs1 (by omega)
        · rw [if_neg h1] at hs2 hroot ⊢
          try dsimp only at hs2 hroot ⊢
          obtain ⟨A1, A2, A3, A4, A5⟩ := alloc_indirect_one_zero
            (min (bytes_to_sectors disk.length -
              min (bytes_to_sectors disk.length) DIRECT_BLOCKS) INDIRECT_BLOCKS)
            Dr.2.1 Dr.2.2 D1
          by_cases h2 : bytes_to_sectors disk.length -
              min (bytes_to_sectors disk.length) DIRECT_BLOCKS -
              min (bytes_to_sectors disk.length -
                min (bytes_to_sectors disk.length) DIRECT_BLOCKS) INDIRECT_BLOCKS = 0
          · rw [if_pos h2] at hs2 hroot ⊢
            dsimp only at hs2 hroot ⊢
            by_cases hsl : s < Dr.2.2.next
            · rw [A5 s hsl (by rw [A2]; omega)]
              exact D3 s hs1 (by omega)
            · exact A4 s (by omega) hs2 hroot
          · rw [if_neg h2] at hs2 hroot ⊢
            try dsimp only at hs2 hroot ⊢
            have he3 : (inode_allocate_indirect 1 0
                (min (bytes_to_sectors disk.length -
                  min (bytes_to_sectors disk.length) DIRECT_BLOCKS) INDIRECT_BLOCKS)
                Dr.2.1 Dr.2.2).1 ≠ 0 := by
              rw [A2]
              omega
            obtain ⟨B1, B2, B3, B4, B5⟩ := alloc_indirect_one_pos
              ((inode_allocate_indirect 1 0
                (min (bytes_to_sectors disk.length -
                  min (bytes_to_sectors disk.length) DIRECT_BLOCKS) INDIRECT_BLOCKS)
                Dr.2.1 Dr.2.2).1)
              (min (bytes_to_sectors disk.length -
                min (bytes_to_sectors disk.length) DIRECT_BLOCKS -
                min (bytes_to_sectors disk.length -
                  min (bytes_to_sectors disk.length) DIRECT_BLOCKS) INDIRECT_BLOCKS)
                DOUBLE_INDIRECT_BLOCKS)
              ((inode_allocate_indirect 1 0
                (min (bytes_to_sectors disk.length -
                  min (bytes_to_sectors disk.length) DIRECT_BLOCKS) INDIRECT_BLOCKS)
                Dr.2.1 Dr.2.2).2.1)
              ((inode_allocate_indirect 1 0
                (min (bytes_to_sectors disk.length -
                  min (bytes_to_sectors disk.length) DIRECT_BLOCKS) INDIRECT_BLOCKS)
                Dr.2.1 Dr.2.2).2.2)
              he3 A1
            by_cases h3 : bytes_to_sectors disk.length -
                min (bytes_to_sectors disk.length) DIRECT_BLOCKS -
                min (bytes_to_sectors disk.length -
                  min (bytes_to_sectors disk.length) DIRECT_BLOCKS) INDIRECT_BLOCKS -
                min (bytes_to_sectors disk.length -
                  min (bytes_to_sectors disk.length) DIRECT_BLOCKS -
                  min (bytes_to_sectors disk.length -
                    min (bytes_to_sectors disk.length) DIRECT_BLOCKS) INDIRECT_BLOCKS)
                  DOUBLE_INDIRECT_BLOCKS = 0
            · rw [if_pos h3] at hs2 hroot ⊢
              dsimp only at hs2 hroot ⊢
              rw [B2] at hroot
              by_cases hsl : s < Dr.2.2.next
              · rw [B5 s (by omega) (by rw [B2, A2]; omega)]
                rw [A5 s hsl (by rw [A2]; omega)]
                exact D3 s hs1 (by omega)
              · by_cases hsm : s < (inode_allocate_indirect 1 0
                    (min (bytes_to_sectors disk.length -
                      min (bytes_to_sectors disk.length) DIRECT_BLOCKS) INDIRECT_BLOCKS)
                    Dr.2.1 Dr.2.2).2.2.next
                · rw [B5 s (by omega) (by rw [B2]; exact hroot)]
                  exact A4 s (by omega) hsm hroot
                · exact B4 s (by omega) hs2 (by rw [B2]; exact hroot)
            · rw [if_neg h3] at hs2 hroot ⊢
              dsimp only at hs2 hroot ⊢
              rw [B2] at hroot
              by_cases hsl : s < Dr.2.2.next
              · rw [B5 s (by omega) (by rw [B2, A2]; omega)]
                rw [A5 s hsl (by rw [A2]; omega)]
                exact D3 s hs1 (by omega)
              · by_cases hsm : s < (inode_allocate_indirect 1 0
                    (min (bytes_to_sectors disk.length -
                      min (bytes_to_sectors disk.length) DIRECT_BLOCKS) INDIRECT_BLOCKS)
                    Dr.2.1 Dr.2.2).2.2.next
                · rw [B5 s (by omega) (by rw [B2]; exact hroot)]
                  exact A4 s (by omega) hsm hroot
                · exact B4 s (by omega) hs2 (by rw [B2]; exact hroot)
  · decide

theorem c7_witness :
    1 ∈ (inode_allocate inoW.data st0 fm0).2.2.2.allocated
    ∧ content (inode_allocate inoW.data st0 fm0).2.2.1 1 = zerosBlock :=
  ⟨(c7_zero_fill.1 inoW.data st0 fm0 (cacheInv_init device0) (by decide) (by decide) 1
      (by decide) (by decide)).1,
   (c7_zero_fill.1 inoW.data st0 fm0 (cacheInv_init device0) (by decide) (by decide) 1
      (by decide) (by decide)).2 (by decide)⟩
